import Mathlib

/-!
Verification of the storage-and-security core of the gineco-termux bot.

The development embeds `src/security.js` (AES-256-GCM blob format, PIN
validation, the session manager) and `src/database.js` (the per-user record
store) as executable Lean definitions and proves the specified properties
about them.

Conventions used throughout:

* JavaScript strings and Node `Buffer`s are modelled as `List Nat` of byte
  values (UTF-8 code units); all payloads handled by the cipher are byte
  lists whose elements are below 256.
* The AES-256-GCM primitive itself lives in Node's `crypto` module, not in
  this repository.  Modelled from the spec: "symmetric authenticated
  encryption (AEAD)... Tampered ciphertext must deterministically fail
  authentication".  It is idealized as an authenticated stream cipher:
  encryption XORs a keystream derived from (key, iv) into the plaintext,
  and the authentication tag is a perfect MAC, represented by the byte
  string `key ++ iv ++ ciphertext`.  (A real GCM tag is a 16-byte value
  that is unforgeable only with overwhelming probability; the idealization
  makes authentication exact, which is the standard symbolic model.)
* Base64 (`Buffer.toString('base64')` / `Buffer.from(s, 'base64')`) and the
  JSON shape `{"iv":"..","authTag":"..","encrypted":".."}` produced by
  `JSON.stringify` are modelled bit- and byte-faithfully, because the
  tampering claims depend on them.  The JSON parser is restricted to the
  exact grammar of the blobs the cipher emits (fixed key order, no
  whitespace, no escape sequences); on the corrupted blobs considered here
  every input outside this subset either fails `JSON.parse` as well or
  yields a field that fails authentication, so the restriction does not
  change the outcome of `decryptData`.
-/

namespace Gineco

/-! ### Bit streams and base64 -/
/-- One bit as a natural number. -/
def bitN (b : Bool) : Nat := if b then 1 else 0

/-- The eight bits of a byte, most significant first (the order in which a
base64 serializer consumes them). -/
def byteBits (x : Nat) : List Bool :=
  [x.testBit 7, x.testBit 6, x.testBit 5, x.testBit 4,
   x.testBit 3, x.testBit 2, x.testBit 1, x.testBit 0]

/-- Value of eight bits, most significant first. -/
def byteVal (b7 b6 b5 b4 b3 b2 b1 b0 : Bool) : Nat :=
  128 * bitN b7 + 64 * bitN b6 + 32 * bitN b5 + 16 * bitN b4 +
  8 * bitN b3 + 4 * bitN b2 + 2 * bitN b1 + bitN b0

/-- Serialize a byte string to its bit stream. -/
def bytesToBits (l : List Nat) : List Bool := (l.map byteBits).flatten

/-- Group a bit stream into bytes, dropping trailing bits that do not fill a
whole byte (exactly how Node's base64 decoder treats slack bits). -/
def bitsToBytes : List Bool → List Nat
  | b7 :: b6 :: b5 :: b4 :: b3 :: b2 :: b1 :: b0 :: rest =>
      byteVal b7 b6 b5 b4 b3 b2 b1 b0 :: bitsToBytes rest
  | _ => []

/-- The six bits of a base64 digit value, most significant first. -/
def sixBits (v : Nat) : List Bool :=
  [v.testBit 5, v.testBit 4, v.testBit 3, v.testBit 2, v.testBit 1, v.testBit 0]

/-- Value of six bits, most significant first. -/
def sixVal (b5 b4 b3 b2 b1 b0 : Bool) : Nat :=
  32 * bitN b5 + 16 * bitN b4 + 8 * bitN b3 + 4 * bitN b2 + 2 * bitN b1 + bitN b0

/-- Group a bit stream into six-bit base64 digit values. -/
def sixChunks : List Bool → List Nat
  | b5 :: b4 :: b3 :: b2 :: b1 :: b0 :: rest =>
      sixVal b5 b4 b3 b2 b1 b0 :: sixChunks rest
  | _ => []

/-- ASCII code of the base64 digit for a value below 64 (the RFC 4648
alphabet used by `Buffer.toString('base64')`). -/
def b64chr (v : Nat) : Nat :=
  if v < 26 then v + 65
  else if v < 52 then v + 71
  else if v < 62 then v - 4
  else if v = 62 then 43
  else 47

/-- Base64 digit value of an ASCII code; `none` for a character outside the
alphabet (Node's decoder ignores such characters). -/
def b64val (c : Nat) : Option Nat :=
  if 65 ≤ c ∧ c ≤ 90 then some (c - 65)
  else if 97 ≤ c ∧ c ≤ 122 then some (c - 71)
  else if 48 ≤ c ∧ c ≤ 57 then some (c + 4)
  else if c = 43 then some 62
  else if c = 47 then some 63
  else none

/-- Number of `'='` padding characters appended for a payload of `len` bytes. -/
def b64pads (len : Nat) : Nat := (3 - len % 3) % 3

/-- `Buffer.toString('base64')`: emit the six-bit groups of the bit stream
(the final group padded with zero bits) as alphabet characters, followed by
`'='` padding. -/
def b64encode (bs : List Nat) : List Nat :=
  (sixChunks (bytesToBits bs ++ List.replicate (2 * b64pads bs.length) false)).map b64chr
    ++ List.replicate (b64pads bs.length) 61

/-- `Buffer.from(s, 'base64')`: read characters up to the first `'='`,
ignore characters outside the alphabet, concatenate the six-bit values and
keep only whole bytes. -/
def b64decode (cs : List Nat) : List Nat :=
  bitsToBytes ((((cs.takeWhile (fun c => c != 61)).filterMap b64val).map sixBits).flatten)

/-! ### The JSON envelope of the encrypted blob

`encryptData` serializes `JSON.stringify({iv, authTag, encrypted})` where the
three values are base64 strings.  The fixed byte sequences below are the
literal punctuation and key names of that object. -/
/-- The opening bytes of the serialized object, up to the iv value. -/
def jsonPre : List Nat := [123, 34, 105, 118, 34, 58, 34]

/-- The bytes between the iv value and the authTag value. -/
def jsonMid1 : List Nat := [34, 44, 34, 97, 117, 116, 104, 84, 97, 103, 34, 58, 34]

/-- The bytes between the authTag value and the encrypted value. -/
def jsonMid2 : List Nat :=
  [34, 44, 34, 101, 110, 99, 114, 121, 112, 116, 101, 100, 34, 58, 34]

/-- The closing bytes of the serialized object. -/
def jsonSuf : List Nat := [34, 125]

/-- `JSON.stringify({iv: a, authTag: b, encrypted: c})` at byte level. -/
def render (a b c : List Nat) : List Nat :=
  jsonPre ++ a ++ jsonMid1 ++ b ++ jsonMid2 ++ c ++ jsonSuf

/-- Strip an expected byte sequence from the front of a list. -/
def stripSeq : List Nat → List Nat → Option (List Nat)
  | [], bs => some bs
  | _ :: _, [] => none
  | p :: ps, b :: bs => if p = b then stripSeq ps bs else none

/-- `JSON.parse` restricted to the object shape emitted by `encryptData`:
the three keys in serialization order, string values not containing a
quote.  (See the header comment: on the corrupted blobs considered in this
development the restriction does not change the outcome of decryption.) -/
def parseBlob (bs : List Nat) : Option (List Nat × List Nat × List Nat) :=
  (stripSeq jsonPre bs).bind (fun r0 =>
    (stripSeq jsonMid1 (r0.dropWhile (fun x => x != 34))).bind (fun r1 =>
      (stripSeq jsonMid2 (r1.dropWhile (fun x => x != 34))).bind (fun r2 =>
        if r2.dropWhile (fun x => x != 34) = jsonSuf
        then some (r0.takeWhile (fun x => x != 34),
                   r1.takeWhile (fun x => x != 34),
                   r2.takeWhile (fun x => x != 34))
        else none)))

/-! ### The cipher (security.js: `encryptData` / `decryptData`) -/
/-- Modelled from the spec: the AES-256-GCM keystream byte at position `i`
for the cached master key and the per-call IV.  The primitive is Node
`crypto`, not repository code; any fixed keystream function models it (see
the header comment). -/
def ks (key iv : List Nat) (i : Nat) : Nat := (key.sum + 7 * iv.sum + 131 * i) % 256

/-- XOR a byte list against the keystream, starting at stream position `i`. -/
def xorKs (key iv : List Nat) : Nat → List Nat → List Nat
  | _, [] => []
  | i, x :: r => (x ^^^ ks key iv i) :: xorKs key iv (i + 1) r

/-- Modelled from the spec: the GCM authentication tag, idealized as a
perfect MAC over (key, iv, ciphertext); see the header comment. -/
def gcmTag (key iv ct : List Nat) : List Nat := key ++ iv ++ ct

/-- `encryptData` (security.js:49-81): GCM-encrypt the plaintext under the
cached master key and a fresh random IV, then bundle
`{iv, authTag, encrypted}` — each field base64 — as a JSON object and
base64-encode the whole serialization.  The random IV and the cached key
are explicit parameters of the model. -/
def encryptData (key iv pt : List Nat) : List Nat :=
  b64encode (render (b64encode iv)
                    (b64encode (gcmTag key iv (xorKs key iv 0 pt)))
                    (b64encode (xorKs key iv 0 pt)))

/-- `decryptData` (security.js:88-119): base64-decode the envelope, parse
the JSON object, base64-decode the three fields, verify the authentication
tag, and decrypt.  `none` models the thrown error
'Falha na descriptografia' (every failure inside the try block is mapped
to that single error). -/
def decryptData (key blob : List Nat) : Option (List Nat) :=
  match parseBlob (b64decode blob) with
  | none => none
  | some (a, b, c) =>
      if b64decode b = gcmTag key (b64decode a) (b64decode c)
      then some (xorKs key (b64decode a) 0 (b64decode c))
      else none

/-! ### Bit flips and the tampering analysis -/
/-- Flip bit `i` of a byte string: bit `i % 8` (0 = least significant) of
byte `i / 8`.  Out-of-range indices leave the string unchanged. -/
def flipBit (l : List Nat) (i : Nat) : List Nat :=
  l.set (i / 8) ((l.getD (i / 8) 0) ^^^ 2 ^ (i % 8))

/-- The first byte of a bit stream (0 if fewer than eight bits). -/
def byte8 : List Bool → Nat
  | b7 :: b6 :: b5 :: b4 :: b3 :: b2 :: b1 :: b0 :: _ =>
      byteVal b7 b6 b5 b4 b3 b2 b1 b0
  | _ => 0

/-- The structural quote positions of the serialized object, as a function
of the three value lengths. -/
def Qmem (A B C q : Nat) : Prop :=
  q = 1 ∨ q = 4 ∨ q = 6 ∨ q = 7 + A ∨ q = 9 + A ∨ q = 17 + A ∨ q = 19 + A ∨
  q = 20 + A + B ∨ q = 22 + A + B ∨ q = 32 + A + B ∨ q = 34 + A + B ∨
  q = 35 + A + B + C

/-! ### Decoding a blob with one modified character -/
/-- The six-bit digit values of the base64 serialization of `bs`. -/
def encVals (bs : List Nat) : List Nat :=
  sixChunks (bytesToBits bs ++ List.replicate (2 * b64pads bs.length) false)

/-! ### The database layer (database.js)

Strings of the JavaScript source (user ids, record ids, dates, categories,
contents) are embedded as lists of UTF-16 code units (`List Nat`); the
inputs of interest are ASCII.  Instants (`Date.now()`, the time value of a
`Date`) are embedded as natural numbers of milliseconds; `toISOString` is
an order-isomorphism between time values and ISO-8601 strings and
`new Date(iso)` inverts it, so the comparator
`new Date(b.timestamp) - new Date(a.timestamp)` of `addRecord` is embedded
as numeric comparison of the embedded time values.  The local civil date of
the current instant (`getFullYear`/`getMonth`/`getDate`) is carried
separately in a clock structure, since it depends on the time zone.

The per-user file store is embedded at document granularity: a file either
holds the (optionally encrypted) JSON serialization of a well-formed user
document — serialization and encryption round-trip, the latter by
`decryptData_encryptData` — or contents whose read, decrypt or parse
fails (`FileContent.corrupt`), which is how `loadUserData` reaches its
catch branch.  A boolean `writeOk` oracle models I/O failure of
`fs.writeFileSync` (the catch branch of `saveUserData`), and `unlinkOk`
that of `fs.unlinkSync` in `deleteUserData`.  `generateRecordId` and
`generateSessionToken` draw randomness, so the generated id and token are
taken as parameters. -/
/-- A local civil date, year-month-day. -/
structure Civil where
  year : Nat
  month : Nat
  day : Nat
deriving DecidableEq

/-- The ambient clock: the current instant in milliseconds (`Date.now()`)
and its local civil date. -/
structure Clock where
  nowMs : Nat
  today : Civil
deriving DecidableEq

/-- Days since 0000-03-01 of a civil date (Howard Hinnant's
`days_from_civil`, shifted to stay in natural numbers). -/
def daysFromCivil (t : Civil) : Nat :=
  let y := if t.month ≤ 2 then t.year - 1 else t.year
  let era := y / 400
  let yoe := y % 400
  let mp := (t.month + 9) % 12
  let doy := (153 * mp + 2) / 5 + t.day - 1
  let doe := yoe * 365 + yoe / 4 - yoe / 100 + doy
  era * 146097 + doe

/-- Civil date of a day count (Howard Hinnant's `civil_from_days`). -/
def civilFromDays (z : Nat) : Civil :=
  let era := z / 146097
  let doe := z % 146097
  let yoe := (doe - doe / 1460 + doe / 36524 - doe / 146096) / 365
  let y := yoe + era * 400
  let doy := doe - (365 * yoe + yoe / 4 - yoe / 100)
  let mp := (5 * doy + 2) / 153
  let d := doy - (153 * mp + 2) / 5 + 1
  let m := if mp < 10 then mp + 3 else mp - 9
  { year := if m ≤ 2 then y + 1 else y, month := m, day := d }

/-- The civil date `days` days before `t`: the effect of
`limitDate.setDate(limitDate.getDate() - days)` on the date parts. -/
def civilMinusDays (t : Civil) (days : Nat) : Civil :=
  civilFromDays (daysFromCivil t - days)

/-- Decimal digit characters of a natural number (`String(n)`). -/
def natStr (n : Nat) : List Nat :=
  (Nat.toDigits 10 n).map Char.toNat

/-- Two-digit zero padding (`String(n).padStart(2, chr 48)`). -/
def pad2 (n : Nat) : List Nat :=
  if n < 10 then 48 :: natStr n else natStr n

/-- formatDate of database.js: the zero-padded `YYYY-MM-DD` rendering of a
civil date (45 is the dash). -/
def formatDate (t : Civil) : List Nat :=
  natStr t.year ++ 45 :: (pad2 t.month ++ 45 :: pad2 t.day)

/-- Lexicographic order on code-unit lists: the comparison performed by the
JavaScript relational operators on strings.  `jsLeB a b` is `a <= b`. -/
def jsLeB : List Nat → List Nat → Bool
  | [], _ => true
  | _ :: _, [] => false
  | a :: as, b :: bs => if a < b then true else if b < a then false else jsLeB as bs

/-- Code units of the literal suffix removed by `sanitizePhoneNumber`
(the fifteen characters of the at-sign server suffix). -/
def waSuffix : List Nat :=
  [64, 115, 46, 119, 104, 97, 116, 115, 97, 112, 112, 46, 110, 101, 116]

/-- Whether `p` matches the front of `l`. -/
def headMatches : List Nat → List Nat → Bool
  | [], _ => true
  | _ :: _, [] => false
  | p :: ps, x :: xs => p == x && headMatches ps xs

/-- Remove the first occurrence of `p` from `l`
(`l.replace(p, chr-empty)` for a plain-string pattern). -/
def removeFirst (p : List Nat) : List Nat → List Nat
  | [] => []
  | x :: xs => if headMatches p (x :: xs) then (x :: xs).drop p.length
               else x :: removeFirst p xs

/-- sanitizePhoneNumber of database.js: drop the first occurrence of the
WhatsApp server suffix, then keep only ASCII digits. -/
def sanitizePhoneNumber (phone : List Nat) : List Nat :=
  (removeFirst waSuffix phone).filter (fun c => 48 ≤ c && c ≤ 57)

/-- Stored metadata of a user document.  `createdAt` and `lastUpdate` are
ISO-8601 instants, embedded by their time value. -/
structure Metadata where
  createdAt : Nat
  lastUpdate : Nat
  totalRecords : Nat
  error : Option (List Nat)
deriving DecidableEq

/-- A stored health record.  `content` is optional because `addRecord`
copies `record.content` verbatim, which may be absent. -/
structure Record where
  id : List Nat
  timestamp : Nat
  date : List Nat
  category : List Nat
  content : Option (List Nat)
deriving DecidableEq

/-- A user document: `{ userId, records, metadata }`. -/
structure UserDocument where
  userId : List Nat
  records : List Record
  metadata : Metadata
deriving DecidableEq

/-- The caller-supplied partial record passed to `addRecord`: each field is
present (`some`) or absent (`none`). -/
structure RecordInput where
  rid : Option (List Nat)
  rtimestamp : Option Nat
  rdate : Option (List Nat)
  rcategory : Option (List Nat)
  rcontent : Option (List Nat)
deriving DecidableEq

/-- Contents of a stored per-user file: either the (optionally encrypted)
serialization of a well-formed document, or contents on which read,
decrypt or JSON-parse fails. -/
inductive FileContent where
  | stored (enc : Bool) (d : UserDocument)
  | corrupt
deriving DecidableEq

/-- The on-disk state: an association from sanitized user ids to files. -/
abbrev Store := List (List Nat × FileContent)

/-- Look up a key in an association list. -/
def assocGet {α : Type} : List (List Nat × α) → List Nat → Option α
  | [], _ => none
  | e :: rest, k => if e.1 = k then some e.2 else assocGet rest k

/-- Remove a key from an association list entirely (`Map.delete`, or
deleting a file). -/
def assocDel {α : Type} (l : List (List Nat × α)) (k : List Nat) :
    List (List Nat × α) :=
  l.filter (fun e => !(e.1 == k))

/-- Bind a key in an association list (`Map.set`, or writing a file). -/
def assocSet {α : Type} (l : List (List Nat × α)) (k : List Nat) (v : α) :
    List (List Nat × α) :=
  (k, v) :: assocDel l k

/-- The message placed in `metadata.error` by the catch branch of
`loadUserData` (the code units of the Portuguese failure message). -/
def loadFailMsg : List Nat :=
  [70, 97, 108, 104, 97, 32, 97, 111, 32, 99, 97, 114, 114, 101, 103, 97,
   114, 32, 100, 97, 100, 111, 115, 32, 97, 110, 116, 101, 114, 105, 111,
   114, 101, 115]

/-- The empty user document produced by `loadUserData` when no file exists
(error `none`) or when loading fails (error set). -/
def emptyDoc (clock : Clock) (userId : List Nat) (err : Option (List Nat)) :
    UserDocument :=
  { userId := sanitizePhoneNumber userId
    records := []
    metadata :=
      { createdAt := clock.nowMs
        lastUpdate := clock.nowMs
        totalRecords := 0
        error := err } }

/-- loadUserData of database.js.  No file yields the empty document; a
well-formed file stored under the same encryption mode yields its
document; a corrupt file — or a file stored under the other mode, whose
decrypt respectively JSON-parse throws — reaches the catch branch and
yields the empty document with the error marker. -/
def loadUserData (db : Store) (clock : Clock) (userId : List Nat)
    (encrypted : Bool) : UserDocument :=
  match assocGet db (sanitizePhoneNumber userId) with
  | none => emptyDoc clock userId none
  | some (FileContent.stored enc d) =>
      if enc = encrypted then d else emptyDoc clock userId (some loadFailMsg)
  | some FileContent.corrupt => emptyDoc clock userId (some loadFailMsg)

/-- saveUserData of database.js: refresh `metadata.lastUpdate` and
`metadata.totalRecords`, then write; a write failure (oracle `writeOk`
false) reaches the catch branch, leaves the store unchanged and returns
false. -/
def saveUserData (db : Store) (clock : Clock) (writeOk : Bool)
    (userId : List Nat) (d : UserDocument) (encrypted : Bool) : Store × Bool :=
  let d2 := { d with metadata :=
    { d.metadata with lastUpdate := clock.nowMs, totalRecords := d.records.length } }
  if writeOk then
    (assocSet db (sanitizePhoneNumber userId) (FileContent.stored encrypted d2), true)
  else (db, false)

/-- The record synthesized by `addRecord`: generated id, current timestamp
and defaulted date and category, then the caller record spread last, so
every field present in the caller record wins over the generated one. -/
def mkRecord (rid : List Nat) (nowMs : Nat) (today : List Nat)
    (r : RecordInput) : Record :=
  { id := r.rid.getD rid
    timestamp := r.rtimestamp.getD nowMs
    date := r.rdate.getD today
    category := r.rcategory.getD [111, 98, 115, 101, 114, 118, 97, 99, 97, 111]
    content := r.rcontent }

/-- Insert a record into a list sorted by descending timestamp, before the
first strictly older entry. -/
def insertRecord (r : Record) : List Record → List Record
  | [] => [r]
  | x :: xs => if r.timestamp < x.timestamp then x :: insertRecord r xs
               else r :: x :: xs

/-- The stable descending sort by timestamp performed by
`records.sort(fun a b => tb - ta)`: for a consistent comparator the stable
sort result is unique, and stable insertion sort computes it. -/
def sortRecords : List Record → List Record
  | [] => []
  | x :: xs => insertRecord x (sortRecords xs)

/-- addRecord of database.js: load, synthesize the record, push, sort by
descending timestamp and save.  The loaded document never throws and
`saveUserData` returns false instead of throwing, so the catch branch is
unreachable. -/
def addRecord (db : Store) (clock : Clock) (writeOk : Bool) (rid : List Nat)
    (userId : List Nat) (r : RecordInput) (encrypted : Bool) : Store × Bool :=
  let userData := loadUserData db clock userId encrypted
  let newRecord := mkRecord rid clock.nowMs (formatDate clock.today) r
  saveUserData db clock writeOk userId
    { userData with records := sortRecords (userData.records ++ [newRecord]) }
    encrypted

/-- getRecordsByDate of database.js: records whose date equals the given
day exactly. -/
def getRecordsByDate (db : Store) (clock : Clock) (userId : List Nat)
    (date : List Nat) (encrypted : Bool) : List Record :=
  (loadUserData db clock userId encrypted).records.filter (fun r => r.date == date)

/-- getRecentRecords of database.js: records whose date is
lexicographically at least the rendering of today minus `days`. -/
def getRecentRecords (db : Store) (clock : Clock) (userId : List Nat)
    (days : Nat) (encrypted : Bool) : List Record :=
  (loadUserData db clock userId encrypted).records.filter
    (fun r => jsLeB (formatDate (civilMinusDays clock.today days)) r.date)

/-- getAllRecords of database.js. -/
def getAllRecords (db : Store) (clock : Clock) (userId : List Nat)
    (encrypted : Bool) : List Record :=
  (loadUserData db clock userId encrypted).records

/-- deleteUserData of database.js: unlink the file when it exists; an
unlink failure (oracle `unlinkOk` false) reaches the catch branch and
returns false with the store unchanged. -/
def deleteUserData (db : Store) (unlinkOk : Bool) (userId : List Nat) :
    Store × Bool :=
  match assocGet db (sanitizePhoneNumber userId) with
  | some _ =>
      if unlinkOk then (assocDel db (sanitizePhoneNumber userId), true)
      else (db, false)
  | none => (db, false)

/-! ### PIN validation and sessions (security.js) -/
/-- isValidPIN of security.js: the anchored pattern of four to six ASCII
digit classes. -/
def isValidPIN (pin : List Nat) : Bool :=
  decide (4 ≤ pin.length) && decide (pin.length ≤ 6)
    && pin.all (fun c => 48 ≤ c && c ≤ 57)

/-- A stored session. -/
structure Session where
  suserId : List Nat
  stoken : List Nat
  screatedAt : Nat
  slastActivity : Nat
deriving DecidableEq

/-- The session manager state: the user-to-session map and the idle
timeout in milliseconds (constructor default 1800000). -/
structure SessionManager where
  sessions : List (List Nat × Session)
  timeoutMs : Nat
deriving DecidableEq

/-- createSession of security.js; the generated token is a parameter. -/
def createSession (sm : SessionManager) (now : Nat) (token userId : List Nat) :
    SessionManager × List Nat :=
  let s : Session :=
    { suserId := userId, stoken := token, screatedAt := now, slastActivity := now }
  ({ sm with sessions := assocSet sm.sessions userId s }, token)

/-- validateSession of security.js: false without a session, false on a
token mismatch, destroy and false past the idle timeout, otherwise refresh
the last activity and true. -/
def validateSession (sm : SessionManager) (now : Nat) (userId token : List Nat) :
    SessionManager × Bool :=
  match assocGet sm.sessions userId with
  | none => (sm, false)
  | some s =>
      if s.stoken ≠ token then (sm, false)
      else if sm.timeoutMs < now - s.slastActivity then
        ({ sm with sessions := assocDel sm.sessions userId }, false)
      else
        ({ sm with sessions := assocSet sm.sessions userId { s with slastActivity := now } },
          true)

/-- Records sorted by descending timestamp: each entry is at least as
recent as every later one. -/
abbrev SortedDesc (l : List Record) : Prop :=
  List.Pairwise (fun a b => b.timestamp ≤ a.timestamp) l

/-! ### Concrete fixtures for the witnesses -/
/-- A sample user id (the digits 5511). -/
def u0 : List Nat := [53, 53, 49, 49]

/-- A clock on 2026-10-11. -/
def clock1 : Clock := { nowMs := 1000, today := { year := 2026, month := 10, day := 11 } }

/-- A later clock on 2026-10-12. -/
def clock2 : Clock := { nowMs := 2000, today := { year := 2026, month := 10, day := 12 } }

/-- A caller record with only a content field. -/
def input0 : RecordInput :=
  { rid := none, rtimestamp := none, rdate := none, rcategory := none,
    rcontent := some [111, 105] }

/-- A caller record carrying its own id, timestamp and content. -/
def input1 : RecordInput :=
  { rid := some [99, 49], rtimestamp := some 77, rdate := none,
    rcategory := none, rcontent := some [120] }

/-- The store after one insert at the first clock. -/
def db1 : Store := (addRecord [] clock1 true [114, 49] u0 input0 false).1

/-- The store after a second insert at the later clock. -/
def db2 : Store := (addRecord db1 clock2 true [114, 50] u0 input0 false).1

/-- A document whose stored totalRecords field is stale. -/
def doc0 : UserDocument :=
  { userId := u0, records := [],
    metadata := { createdAt := 5, lastUpdate := 5, totalRecords := 7, error := none } }

/-- A record dated 2026-10-12. -/
def recToday : Record :=
  { id := [97], timestamp := 30,
    date := formatDate { year := 2026, month := 10, day := 12 },
    category := [], content := none }

/-- A record dated three days earlier. -/
def rec3 : Record :=
  { id := [98], timestamp := 20,
    date := formatDate { year := 2026, month := 10, day := 9 },
    category := [], content := none }

/-- A record dated ten days earlier. -/
def rec10 : Record :=
  { id := [99], timestamp := 10,
    date := formatDate { year := 2026, month := 10, day := 2 },
    category := [], content := none }

/-- A document holding the three dated records. -/
def doc6 : UserDocument :=
  { userId := u0, records := [recToday, rec3, rec10],
    metadata := { createdAt := 5, lastUpdate := 5, totalRecords := 3, error := none } }

/-- A store holding that document in the clear. -/
def db6 : Store := [(sanitizePhoneNumber u0, FileContent.stored false doc6)]

/-- A sample session token. -/
def tok0 : List Nat := [116, 48]

/-- A session for the sample user, last active at instant 0. -/
def sess0 : Session :=
  { suserId := u0, stoken := tok0, screatedAt := 0, slastActivity := 0 }

/-- A session manager holding that single session, default timeout. -/
def sm0 : SessionManager := { sessions := [(u0, sess0)], timeoutMs := 1800000 }

/-! ### Basic lemmas about the bit-level codecs -/
theorem bitN_testBit (x i : Nat) : bitN (x.testBit i) = x / 2 ^ i % 2 := by
  rw [Nat.testBit_to_div_mod]
  by_cases h : x / 2 ^ i % 2 = 1
  · simp [bitN, h]
  · have h2 : x / 2 ^ i % 2 < 2 := Nat.mod_lt _ (by norm_num)
    have h0 : x / 2 ^ i % 2 = 0 := by omega
    simp [bitN, h0]

theorem byteVal_bits (x : Nat) (h : x < 256) :
    byteVal (x.testBit 7) (x.testBit 6) (x.testBit 5) (x.testBit 4)
      (x.testBit 3) (x.testBit 2) (x.testBit 1) (x.testBit 0) = x := by
  unfold byteVal
  rw [bitN_testBit, bitN_testBit, bitN_testBit, bitN_testBit,
      bitN_testBit, bitN_testBit, bitN_testBit, bitN_testBit]
  simp only [pow_succ, pow_zero, one_mul]
  omega

theorem sixVal_bits (v : Nat) (h : v < 64) :
    sixVal (v.testBit 5) (v.testBit 4) (v.testBit 3)
      (v.testBit 2) (v.testBit 1) (v.testBit 0) = v := by
  unfold sixVal
  rw [bitN_testBit, bitN_testBit, bitN_testBit, bitN_testBit,
      bitN_testBit, bitN_testBit]
  simp only [pow_succ, pow_zero, one_mul]
  omega

theorem sixVal_lt (b5 b4 b3 b2 b1 b0 : Bool) : sixVal b5 b4 b3 b2 b1 b0 < 64 := by
  unfold sixVal bitN
  split <;> split <;> split <;> split <;> split <;> split <;> omega

theorem byteVal_lt (b7 b6 b5 b4 b3 b2 b1 b0 : Bool) :
    byteVal b7 b6 b5 b4 b3 b2 b1 b0 < 256 := by
  unfold byteVal bitN
  split <;> split <;> split <;> split <;> split <;> split <;> split <;> split <;> omega

theorem sixBits_sixVal (b5 b4 b3 b2 b1 b0 : Bool) :
    sixBits (sixVal b5 b4 b3 b2 b1 b0) = [b5, b4, b3, b2, b1, b0] := by
  revert b5 b4 b3 b2 b1 b0; decide

theorem byteBits_byteVal (b7 b6 b5 b4 b3 b2 b1 b0 : Bool) :
    byteBits (byteVal b7 b6 b5 b4 b3 b2 b1 b0) = [b7, b6, b5, b4, b3, b2, b1, b0] := by
  revert b7 b6 b5 b4 b3 b2 b1 b0; decide

theorem bitsToBytes_cons8 (b7 b6 b5 b4 b3 b2 b1 b0 : Bool) (rest : List Bool) :
    bitsToBytes (b7 :: b6 :: b5 :: b4 :: b3 :: b2 :: b1 :: b0 :: rest)
      = byteVal b7 b6 b5 b4 b3 b2 b1 b0 :: bitsToBytes rest := rfl

theorem bitsToBytes_short (l : List Bool) (h : l.length < 8) : bitsToBytes l = [] := by
  match l with
  | [] => rfl
  | [_] => rfl
  | [_, _] => rfl
  | [_, _, _] => rfl
  | [_, _, _, _] => rfl
  | [_, _, _, _, _] => rfl
  | [_, _, _, _, _, _] => rfl
  | [_, _, _, _, _, _, _] => rfl
  | _ :: _ :: _ :: _ :: _ :: _ :: _ :: _ :: _ => simp at h; omega

theorem bytesToBits_cons (x : Nat) (l : List Nat) :
    bytesToBits (x :: l) = byteBits x ++ bytesToBits l := by
  simp [bytesToBits]

theorem bytesToBits_append (l1 l2 : List Nat) :
    bytesToBits (l1 ++ l2) = bytesToBits l1 ++ bytesToBits l2 := by
  simp [bytesToBits]

theorem bytesToBits_length (l : List Nat) : (bytesToBits l).length = 8 * l.length := by
  induction l with
  | nil => rfl
  | cons x r ih => rw [bytesToBits_cons]; simp [byteBits] at *; omega

/-- Decoding the bit stream of a byte string, followed by fewer than eight
extra bits, recovers the byte string. -/
theorem bitsToBytes_bytesToBits (bs : List Nat) (extra : List Bool)
    (hb : ∀ x ∈ bs, x < 256) (he : extra.length < 8) :
    bitsToBytes (bytesToBits bs ++ extra) = bs := by
  induction bs with
  | nil => simpa [bytesToBits] using bitsToBytes_short extra he
  | cons x r ih =>
      rw [bytesToBits_cons, List.append_assoc]
      have hx : x < 256 := hb x (by simp)
      calc bitsToBytes (byteBits x ++ (bytesToBits r ++ extra))
          = byteVal (x.testBit 7) (x.testBit 6) (x.testBit 5) (x.testBit 4)
              (x.testBit 3) (x.testBit 2) (x.testBit 1) (x.testBit 0)
            :: bitsToBytes (bytesToBits r ++ extra) := rfl
        _ = x :: r := by
            rw [byteVal_bits x hx, ih (fun y hy => hb y (by simp [hy]))]

/-- Flattening the six-bit groups of a bit stream whose length is divisible
by six recovers the stream. -/
theorem flatten_sixChunks (l : List Bool) (h : l.length % 6 = 0) :
    ((sixChunks l).map sixBits).flatten = l := by
  induction l using sixChunks.induct with
  | case1 b5 b4 b3 b2 b1 b0 rest ih =>
      rw [sixChunks]
      simp only [List.map_cons, List.flatten_cons]
      rw [sixBits_sixVal]
      have : rest.length % 6 = 0 := by simp at h; omega
      rw [ih this]
      rfl
  | case2 l hne =>
      match l, hne with
      | [], _ => rfl
      | [a], h2 => simp at h
      | [a, b], h2 => simp at h
      | [a, b, c], h2 => simp at h
      | [a, b, c, d], h2 => simp at h
      | [a, b, c, d, e], h2 => simp at h
      | a :: b :: c :: d :: e :: f :: r, h2 => exact absurd rfl (h2 a b c d e f r)

theorem sixChunks_eq_nil (l : List Bool) (h : l.length < 6) : sixChunks l = [] := by
  match l with
  | [] => rfl
  | [_] => rfl
  | [_, _] => rfl
  | [_, _, _] => rfl
  | [_, _, _, _] => rfl
  | [_, _, _, _, _] => rfl
  | _ :: _ :: _ :: _ :: _ :: _ :: _ =>
      simp at h; omega

theorem sixChunks_lt (l : List Bool) : ∀ v ∈ sixChunks l, v < 64 := by
  induction l using sixChunks.induct with
  | case1 b5 b4 b3 b2 b1 b0 rest ih =>
      intro v hv
      rw [sixChunks] at hv
      rcases List.mem_cons.mp hv with h | h
      · subst h; exact sixVal_lt _ _ _ _ _ _
      · exact ih v h
  | case2 l hne =>
      intro v hv
      match l, hne with
      | [], _ => simp [sixChunks] at hv
      | [a], h2 => simp [sixChunks] at hv
      | [a, b], h2 => simp [sixChunks] at hv
      | [a, b, c], h2 => simp [sixChunks] at hv
      | [a, b, c, d], h2 => simp [sixChunks] at hv
      | [a, b, c, d, e], h2 => simp [sixChunks] at hv
      | a :: b :: c :: d :: e :: f :: r, h2 => exact absurd rfl (h2 a b c d e f r)

theorem length_lt_six_of_no_chunk (l : List Bool)
    (hne : ∀ (b5 b4 b3 b2 b1 b0 : Bool) (rest : List Bool),
      l = b5 :: b4 :: b3 :: b2 :: b1 :: b0 :: rest → False) : l.length < 6 := by
  match l, hne with
  | [], _ => simp
  | [_], _ => simp
  | [_, _], _ => simp
  | [_, _, _], _ => simp
  | [_, _, _, _], _ => simp
  | [_, _, _, _, _], _ => simp
  | a :: b :: c :: d :: e :: f :: r, h2 => exact absurd rfl (h2 a b c d e f r)

theorem sixChunks_length (l : List Bool) : (sixChunks l).length = l.length / 6 := by
  induction l using sixChunks.induct with
  | case1 b5 b4 b3 b2 b1 b0 rest ih =>
      rw [sixChunks]
      simp only [List.length_cons, ih]
      omega
  | case2 l hne =>
      have h6 := length_lt_six_of_no_chunk l hne
      rw [sixChunks_eq_nil l h6]
      simp
      omega

theorem b64val_b64chr (v : Nat) (h : v < 64) : b64val (b64chr v) = some v := by
  unfold b64chr b64val
  split_ifs <;> simp_all <;> omega

theorem b64chr_facts (v : Nat) (h : v < 64) :
    b64chr v < 128 ∧ b64chr v ≠ 61 ∧ b64chr v ≠ 34 ∧ b64chr v ≠ 125 := by
  unfold b64chr
  split_ifs <;> omega

theorem b64val_inv (c v : Nat) (h : b64val c = some v) : b64chr v = c ∧ v < 64 := by
  unfold b64val at h
  split_ifs at h with h1 h2 h3 h4 h5 <;>
    (injection h with h0; subst h0; unfold b64chr; constructor)
  · split_ifs <;> omega
  · omega
  · split_ifs <;> omega
  · omega
  · split_ifs <;> omega
  · omega
  · split_ifs <;> omega
  · omega
  · split_ifs <;> omega
  · omega

theorem b64val_ne61 (c v : Nat) (h : b64val c = some v) : c ≠ 61 := by
  intro hc
  subst hc
  simp [b64val] at h

theorem takeWhile_append_all {p : Nat → Bool} (l r : List Nat)
    (h : ∀ x ∈ l, p x = true) : (l ++ r).takeWhile p = l ++ r.takeWhile p := by
  induction l with
  | nil => rfl
  | cons x t ih =>
      simp only [List.cons_append, List.takeWhile_cons]
      rw [h x (by simp), ih (fun y hy => h y (by simp [hy]))]
      simp

theorem takeWhile_replicate61 (n : Nat) :
    (List.replicate n 61).takeWhile (fun c => c != 61) = [] := by
  cases n with
  | zero => rfl
  | succ m =>
      rw [List.replicate_succ, List.takeWhile_cons]
      simp

theorem filterMap_b64val_map (l : List Nat) (h : ∀ v ∈ l, v < 64) :
    (l.map b64chr).filterMap b64val = l := by
  induction l with
  | nil => rfl
  | cons x t ih =>
      simp only [List.map_cons, List.filterMap_cons]
      rw [b64val_b64chr x (h x (by simp))]
      rw [ih (fun y hy => h y (by simp [hy]))]

/-- The base64 round trip: decoding an encoded byte string recovers it. -/
theorem b64decode_b64encode (bs : List Nat) (hb : ∀ x ∈ bs, x < 256) :
    b64decode (b64encode bs) = bs := by
  unfold b64encode b64decode
  rw [takeWhile_append_all]
  · rw [takeWhile_replicate61, List.append_nil]
    rw [filterMap_b64val_map _ (sixChunks_lt _)]
    rw [flatten_sixChunks]
    · exact bitsToBytes_bytesToBits bs _ hb (by
        simp only [List.length_replicate]
        unfold b64pads
        omega)
    · simp only [List.length_append, List.length_replicate, bytesToBits_length]
      unfold b64pads
      omega
  · intro x hx
    rcases List.mem_map.mp hx with ⟨v, hv, rfl⟩
    have := (b64chr_facts v (sixChunks_lt _ v hv)).2.1
    simpa using this

theorem stripSeq_self_append (p r : List Nat) : stripSeq p (p ++ r) = some r := by
  induction p with
  | nil => rfl
  | cons x t ih => simp [stripSeq, ih]

theorem stripSeq_sound (p bs r : List Nat) (h : stripSeq p bs = some r) :
    bs = p ++ r := by
  induction p generalizing bs with
  | nil => cases h; rfl
  | cons x t ih =>
      match bs with
      | [] => exact absurd h (by simp [stripSeq])
      | y :: ys =>
          rw [stripSeq] at h
          split_ifs at h with hxy
          subst hxy
          rw [ih ys h]
          rfl

theorem dropWhile_append_all {p : Nat → Bool} (l r : List Nat)
    (h : ∀ x ∈ l, p x = true) : (l ++ r).dropWhile p = r.dropWhile p := by
  induction l with
  | nil => rfl
  | cons x t ih =>
      simp only [List.cons_append, List.dropWhile_cons]
      rw [h x (by simp)]
      simpa using ih (fun y hy => h y (by simp [hy]))

theorem takeWhile34_quote_head (r : List Nat) :
    (34 :: r).takeWhile (fun x => x != 34) = [] := by
  rw [List.takeWhile_cons]; simp

theorem dropWhile34_quote_head (r : List Nat) :
    (34 :: r).dropWhile (fun x => x != 34) = 34 :: r := by
  rw [List.dropWhile_cons]; simp

/-- Completeness of the blob parser on well-formed objects. -/
theorem parseBlob_render (a b c : List Nat)
    (ha : 34 ∉ a) (hb : 34 ∉ b) (hc : 34 ∉ c) :
    parseBlob (render a b c) = some (a, b, c) := by
  have hta : ∀ x ∈ a, (fun x => x != 34) x = true := by
    intro x hx; simp; rintro rfl; exact ha hx
  have htb : ∀ x ∈ b, (fun x => x != 34) x = true := by
    intro x hx; simp; rintro rfl; exact hb hx
  have htc : ∀ x ∈ c, (fun x => x != 34) x = true := by
    intro x hx; simp; rintro rfl; exact hc hx
  have hm1 : jsonMid1 ++ (b ++ (jsonMid2 ++ (c ++ jsonSuf)))
      = 34 :: ([44, 34, 97, 117, 116, 104, 84, 97, 103, 34, 58, 34]
        ++ (b ++ (jsonMid2 ++ (c ++ jsonSuf)))) := rfl
  have hm2 : jsonMid2 ++ (c ++ jsonSuf)
      = 34 :: ([44, 34, 101, 110, 99, 114, 121, 112, 116, 101, 100, 34, 58, 34]
        ++ (c ++ jsonSuf)) := rfl
  have hsuf : jsonSuf = 34 :: [125] := rfl
  unfold parseBlob render
  simp only [List.append_assoc, stripSeq_self_append, Option.some_bind]
  rw [dropWhile_append_all a _ hta, hm1, dropWhile34_quote_head, ← hm1,
    stripSeq_self_append, Option.some_bind]
  rw [dropWhile_append_all b _ htb, hm2, dropWhile34_quote_head, ← hm2,
    stripSeq_self_append, Option.some_bind]
  rw [dropWhile_append_all c _ htc, hsuf, dropWhile34_quote_head, ← hsuf]
  rw [if_pos rfl]
  rw [takeWhile_append_all a _ hta, hm1, takeWhile34_quote_head, List.append_nil]
  rw [takeWhile_append_all b _ htb, hm2, takeWhile34_quote_head, List.append_nil]
  rw [takeWhile_append_all c _ htc, hsuf, takeWhile34_quote_head, List.append_nil]

/-- Soundness of the blob parser: a successful parse means the input is
exactly the rendering of the three returned quote-free values. -/
theorem parseBlob_sound (bs a b c : List Nat)
    (h : parseBlob bs = some (a, b, c)) :
    bs = render a b c ∧ 34 ∉ a ∧ 34 ∉ b ∧ 34 ∉ c := by
  unfold parseBlob at h
  rw [Option.bind_eq_some] at h
  obtain ⟨r0, h0, h⟩ := h
  rw [Option.bind_eq_some] at h
  obtain ⟨r1, h1, h⟩ := h
  rw [Option.bind_eq_some] at h
  obtain ⟨r2, h2, h⟩ := h
  split_ifs at h with h3
  injection h with hval
  obtain ⟨hav, hbv, hcv⟩ : a = r0.takeWhile (fun x => x != 34)
      ∧ b = r1.takeWhile (fun x => x != 34)
      ∧ c = r2.takeWhile (fun x => x != 34) := by
    have h4 := hval.symm
    rw [Prod.mk.injEq, Prod.mk.injEq] at h4
    exact ⟨h4.1, h4.2.1, h4.2.2⟩
  have hbs := stripSeq_sound _ _ _ h0
  have hr0 := (List.takeWhile_append_dropWhile (p := fun x => x != 34) (l := r0)).symm
  have hd0 := stripSeq_sound _ _ _ h1
  have hr1 := (List.takeWhile_append_dropWhile (p := fun x => x != 34) (l := r1)).symm
  have hd1 := stripSeq_sound _ _ _ h2
  have hr2 := (List.takeWhile_append_dropWhile (p := fun x => x != 34) (l := r2)).symm
  constructor
  · rw [hbs, hr0, hd0, hr1, hd1, hr2, h3, ← hav, ← hbv, ← hcv]
    unfold render
    simp [List.append_assoc]
  · refine ⟨?_, ?_, ?_⟩
    · rw [hav]
      intro hmem
      have := List.mem_takeWhile_imp hmem
      simp at this
    · rw [hbv]
      intro hmem
      have := List.mem_takeWhile_imp hmem
      simp at this
    · rw [hcv]
      intro hmem
      have := List.mem_takeWhile_imp hmem
      simp at this

theorem ks_lt (key iv : List Nat) (i : Nat) : ks key iv i < 256 := by
  unfold ks
  exact Nat.mod_lt _ (by norm_num)

theorem xorKs_lt (key iv : List Nat) (i : Nat) (l : List Nat)
    (h : ∀ x ∈ l, x < 256) : ∀ x ∈ xorKs key iv i l, x < 256 := by
  induction l generalizing i with
  | nil => intro x hx; simp [xorKs] at hx
  | cons y t ih =>
      intro x hx
      rw [xorKs] at hx
      rcases List.mem_cons.mp hx with h1 | h1
      · subst h1
        exact Nat.xor_lt_two_pow (n := 8) (h y (by simp)) (ks_lt key iv i)
      · exact ih (i + 1) (fun z hz => h z (by simp [hz])) x h1

theorem xorKs_xorKs (key iv : List Nat) (i : Nat) (l : List Nat) :
    xorKs key iv i (xorKs key iv i l) = l := by
  induction l generalizing i with
  | nil => rfl
  | cons y t ih =>
      rw [xorKs, xorKs]
      rw [Nat.xor_assoc, Nat.xor_self, Nat.xor_zero]
      rw [ih (i + 1)]

theorem xorKs_length (key iv : List Nat) (i : Nat) (l : List Nat) :
    (xorKs key iv i l).length = l.length := by
  induction l generalizing i with
  | nil => rfl
  | cons y t ih => rw [xorKs]; simp [ih (i + 1)]

theorem b64encode_mem_lt (bs : List Nat) : ∀ x ∈ b64encode bs, x < 256 := by
  intro x hx
  unfold b64encode at hx
  rcases List.mem_append.mp hx with h | h
  · rcases List.mem_map.mp h with ⟨v, hv, rfl⟩
    have := (b64chr_facts v (sixChunks_lt _ v hv)).1
    omega
  · have := List.eq_of_mem_replicate h
    omega

theorem b64encode_no_quote (bs : List Nat) : 34 ∉ b64encode bs := by
  intro hx
  unfold b64encode at hx
  rcases List.mem_append.mp hx with h | h
  · rcases List.mem_map.mp h with ⟨v, hv, he⟩
    exact (b64chr_facts v (sixChunks_lt _ v hv)).2.2.1 he
  · have := List.eq_of_mem_replicate h
    omega

theorem b64encode_no_rbrace (bs : List Nat) : 125 ∉ b64encode bs := by
  intro hx
  unfold b64encode at hx
  rcases List.mem_append.mp hx with h | h
  · rcases List.mem_map.mp h with ⟨v, hv, he⟩
    exact (b64chr_facts v (sixChunks_lt _ v hv)).2.2.2 he
  · have := List.eq_of_mem_replicate h
    omega

theorem render_mem_lt (a b c : List Nat)
    (ha : ∀ x ∈ a, x < 256) (hb : ∀ x ∈ b, x < 256) (hc : ∀ x ∈ c, x < 256) :
    ∀ x ∈ render a b c, x < 256 := by
  intro x hx
  unfold render jsonPre jsonMid1 jsonMid2 jsonSuf at hx
  simp only [List.append_assoc, List.mem_append, List.mem_cons] at hx
  rcases hx with h | h | h | h | h | h | h
  · simp at h; omega
  · exact ha x h
  · simp at h; omega
  · exact hb x h
  · simp at h; omega
  · exact hc x h
  · simp at h; omega

/-- The encrypt-decrypt round trip (shared computation). -/
theorem decryptData_encryptData (key iv pt : List Nat)
    (hkey : ∀ x ∈ key, x < 256) (hiv : ∀ x ∈ iv, x < 256)
    (hpt : ∀ x ∈ pt, x < 256) :
    decryptData key (encryptData key iv pt) = some pt := by
  have hct : ∀ x ∈ xorKs key iv 0 pt, x < 256 := xorKs_lt key iv 0 pt hpt
  have htag : ∀ x ∈ gcmTag key iv (xorKs key iv 0 pt), x < 256 := by
    intro x hx
    unfold gcmTag at hx
    simp only [List.append_assoc, List.mem_append] at hx
    rcases hx with h | h | h
    · exact hkey x h
    · exact hiv x h
    · exact hct x h
  unfold decryptData encryptData
  rw [b64decode_b64encode _ (render_mem_lt _ _ _
        (b64encode_mem_lt _) (b64encode_mem_lt _) (b64encode_mem_lt _))]
  rw [parseBlob_render _ _ _
        (b64encode_no_quote _) (b64encode_no_quote _) (b64encode_no_quote _)]
  simp only
  rw [b64decode_b64encode iv hiv, b64decode_b64encode _ htag,
      b64decode_b64encode _ hct]
  rw [if_pos rfl, xorKs_xorKs]

/-- Claim C1: for every plaintext, decrypting the blob produced by
`encryptData` returns the plaintext: the serialized blob bundles the fresh
IV, the GCM authentication tag and the ciphertext, and `decryptData` needs
only that blob and the cached master key.  Plaintexts, the key and the
16-byte random IV are arbitrary byte strings. -/
theorem C1_decrypt_encrypt_roundtrip (key iv pt : List Nat)
    (hkey : ∀ x ∈ key, x < 256) (hiv : ∀ x ∈ iv, x < 256)
    (_hivlen : iv.length = 16) (hpt : ∀ x ∈ pt, x < 256) :
    decryptData key (encryptData key iv pt) = some pt :=
  decryptData_encryptData key iv pt hkey hiv hpt

/-- Witness for C1 at a concrete key, IV and plaintext. -/
theorem C1_roundtrip_witness :
    decryptData (List.range 32) (encryptData (List.range 32) (List.range 16) [72, 105]) =
      some [72, 105] :=
  C1_decrypt_encrypt_roundtrip (List.range 32) (List.range 16) [72, 105]
    (by decide) (by decide) (by decide) (by decide)

theorem length_lt_eight_of_no_chunk (l : List Bool)
    (hne : ∀ (b7 b6 b5 b4 b3 b2 b1 b0 : Bool) (rest : List Bool),
      l = b7 :: b6 :: b5 :: b4 :: b3 :: b2 :: b1 :: b0 :: rest → False) :
    l.length < 8 := by
  match l, hne with
  | [], _ => simp
  | [_], _ => simp
  | [_, _], _ => simp
  | [_, _, _], _ => simp
  | [_, _, _, _], _ => simp
  | [_, _, _, _, _], _ => simp
  | [_, _, _, _, _, _], _ => simp
  | [_, _, _, _, _, _, _], _ => simp
  | a :: b :: c :: d :: e :: f :: g :: h :: r, h2 => exact absurd rfl (h2 a b c d e f g h r)

theorem bitsToBytes_length (l : List Bool) : (bitsToBytes l).length = l.length / 8 := by
  induction l using bitsToBytes.induct with
  | case1 b7 b6 b5 b4 b3 b2 b1 b0 rest ih =>
      rw [bitsToBytes_cons8]
      simp only [List.length_cons, ih]
      omega
  | case2 l hne =>
      have h8 := length_lt_eight_of_no_chunk l hne
      rw [bitsToBytes_short l h8]
      simp
      omega

theorem bitsToBytes_append_aligned (x y : List Bool) (h : 8 ∣ x.length) :
    bitsToBytes (x ++ y) = bitsToBytes x ++ bitsToBytes y := by
  induction x using bitsToBytes.induct with
  | case1 b7 b6 b5 b4 b3 b2 b1 b0 rest ih =>
      simp only [List.cons_append]
      rw [bitsToBytes_cons8, bitsToBytes_cons8]
      simp only [List.length_cons] at h
      rw [ih (by omega)]
      rfl
  | case2 x hne =>
      have h8 := length_lt_eight_of_no_chunk x hne
      have h0 : x.length = 0 := by omega
      have hx : x = [] := List.length_eq_zero.mp h0
      subst hx
      rfl

/-- Reading a whole byte out of a bit stream. -/
theorem bitsToBytes_getElem (l : List Bool) (n : Nat) (h : 8 * n + 8 ≤ l.length) :
    (bitsToBytes l)[n]? = some (byte8 (l.drop (8 * n))) := by
  induction n generalizing l with
  | zero =>
      match l with
      | b7 :: b6 :: b5 :: b4 :: b3 :: b2 :: b1 :: b0 :: rest =>
          rw [bitsToBytes_cons8]
          simp [byte8]
      | [] | [_] | [_, _] | [_, _, _] | [_, _, _, _] | [_, _, _, _, _]
      | [_, _, _, _, _, _] | [_, _, _, _, _, _, _] =>
          simp only [List.length_cons, List.length_nil] at h
          omega
  | succ m ih =>
      match l with
      | b7 :: b6 :: b5 :: b4 :: b3 :: b2 :: b1 :: b0 :: rest =>
          rw [bitsToBytes_cons8]
          simp only [List.length_cons] at h
          have h2 : 8 * m + 8 ≤ rest.length := by omega
          rw [List.getElem?_cons_succ, ih rest h2]
          rw [(by omega : 8 * (m + 1) = 8 * m + 8)]
          rfl
      | [] | [_] | [_, _] | [_, _, _] | [_, _, _, _] | [_, _, _, _, _]
      | [_, _, _, _, _, _] | [_, _, _, _, _, _, _] =>
          simp only [List.length_cons, List.length_nil] at h
          omega

/-- Changing six consecutive bits of a stream changes at most two adjacent
bytes of its byte decoding. -/
theorem bitsToBytes_window (u v v2 w : List Bool)
    (hv : v.length = 6) (hv2 : v2.length = 6) :
    ∃ U V V2 W, bitsToBytes (u ++ v ++ w) = U ++ V ++ W
      ∧ bitsToBytes (u ++ v2 ++ w) = U ++ V2 ++ W
      ∧ V.length = V2.length ∧ V.length ≤ 2 := by
  induction u using bitsToBytes.induct with
  | case1 b7 b6 b5 b4 b3 b2 b1 b0 rest ih =>
      obtain ⟨U, V, V2, W, h1, h2, h3, h4⟩ := ih
      refine ⟨byteVal b7 b6 b5 b4 b3 b2 b1 b0 :: U, V, V2, W, ?_, ?_, h3, h4⟩
      · simp only [List.cons_append]
        rw [bitsToBytes_cons8, h1]
      · simp only [List.cons_append]
        rw [bitsToBytes_cons8, h2]
  | case2 u hne =>
      have h8 := length_lt_eight_of_no_chunk u hne
      by_cases h16 : 16 ≤ u.length + 6 + w.length
      · -- two full bytes cover the changed window; the tail beyond 16 bits
        -- is identical in both streams
        have hd1 : (u ++ v ++ w).drop 16 = w.drop (16 - u.length - 6) := by
          rw [List.append_assoc, List.drop_append_eq_append_drop,
              List.drop_append_eq_append_drop]
          have : (u.drop 16) = [] := List.drop_eq_nil_of_le (by omega)
          rw [this]
          have : v.drop (16 - u.length) = [] := List.drop_eq_nil_of_le (by omega)
          rw [this]
          simp only [List.nil_append]
          congr 1
          simp [hv]
        have hd2 : (u ++ v2 ++ w).drop 16 = w.drop (16 - u.length - 6) := by
          rw [List.append_assoc, List.drop_append_eq_append_drop,
              List.drop_append_eq_append_drop]
          have : (u.drop 16) = [] := List.drop_eq_nil_of_le (by omega)
          rw [this]
          have : v2.drop (16 - u.length) = [] := List.drop_eq_nil_of_le (by omega)
          rw [this]
          simp only [List.nil_append]
          congr 1
          simp [hv2]
        have hlen1 : (u ++ v ++ w).length = u.length + 6 + w.length := by
          simp [hv]; omega
        have hlen2 : (u ++ v2 ++ w).length = u.length + 6 + w.length := by
          simp [hv2]; omega
        refine ⟨[], bitsToBytes ((u ++ v ++ w).take 16),
                bitsToBytes ((u ++ v2 ++ w).take 16),
                bitsToBytes (w.drop (16 - u.length - 6)), ?_, ?_, ?_, ?_⟩
        · rw [List.nil_append, ← hd1, ← bitsToBytes_append_aligned, List.take_append_drop]
          rw [List.length_take]
          have : min 16 (u ++ v ++ w).length = 16 := by omega
          rw [this]
          decide
        · rw [List.nil_append, ← hd2, ← bitsToBytes_append_aligned, List.take_append_drop]
          rw [List.length_take]
          have : min 16 (u ++ v2 ++ w).length = 16 := by omega
          rw [this]
          decide
        · rw [bitsToBytes_length, bitsToBytes_length]
          rw [List.length_take, List.length_take, hlen1, hlen2]
        · rw [bitsToBytes_length, List.length_take, hlen1]
          omega
      · -- fewer than sixteen bits in total: at most one byte on each side
        have hlen1 : (u ++ v ++ w).length = u.length + 6 + w.length := by
          simp [hv]; omega
        have hlen2 : (u ++ v2 ++ w).length = u.length + 6 + w.length := by
          simp [hv2]; omega
        refine ⟨[], bitsToBytes (u ++ v ++ w), bitsToBytes (u ++ v2 ++ w), [], ?_, ?_, ?_, ?_⟩
        · simp
        · simp
        · rw [bitsToBytes_length, bitsToBytes_length, hlen1, hlen2]
        · rw [bitsToBytes_length, hlen1]
          omega

theorem getElem?_append_if {α : Type} (x y : List α) (q : Nat) :
    (x ++ y)[q]? = if q < x.length then x[q]? else y[q - x.length]? := by
  split_ifs with h
  · exact List.getElem?_append_left h
  · exact List.getElem?_append_right (by omega)

theorem jsonPre_length : jsonPre.length = 7 := rfl

theorem jsonMid1_length : jsonMid1.length = 13 := rfl

theorem jsonMid2_length : jsonMid2.length = 15 := rfl

theorem jsonSuf_length : jsonSuf.length = 2 := rfl

theorem render_length (a b c : List Nat) :
    (render a b c).length = 37 + a.length + b.length + c.length := by
  unfold render
  simp only [List.length_append, jsonPre_length, jsonMid1_length, jsonMid2_length,
    jsonSuf_length]
  omega

/-- Position-by-position description of the serialized object. -/
theorem render_getElem (va vb vc : List Nat) (q : Nat) :
    (render va vb vc)[q]? =
      if q < 7 then jsonPre[q]?
      else if q < 7 + va.length then va[q - 7]?
      else if q < 20 + va.length then jsonMid1[q - 7 - va.length]?
      else if q < 20 + va.length + vb.length then vb[q - 20 - va.length]?
      else if q < 35 + va.length + vb.length then jsonMid2[q - 20 - va.length - vb.length]?
      else if q < 35 + va.length + vb.length + vc.length then vc[q - 35 - va.length - vb.length]?
      else jsonSuf[q - 35 - va.length - vb.length - vc.length]? := by
  unfold render
  simp only [List.append_assoc]
  simp only [getElem?_append_if, jsonPre_length, jsonMid1_length, jsonMid2_length,
    List.length_append]
  split_ifs <;> first
    | rfl
    | omega
    | (congr 1; omega)

/-- A byte of the serialized object is a quote exactly at the structural
quote positions, provided the values are quote-free. -/
theorem render_quote_iff (va vb vc : List Nat)
    (ha : 34 ∉ va) (hb : 34 ∉ vb) (hc : 34 ∉ vc) (q : Nat) :
    ((render va vb vc)[q]? = some 34)
      ↔ Qmem va.length vb.length vc.length q := by
  rw [render_getElem]
  unfold Qmem
  split_ifs with h1 h2 h3 h4 h5 h6
  · interval_cases q <;> simp [jsonPre] <;> omega
  · constructor
    · intro hq
      exact absurd (List.getElem?_mem hq) ha
    · intro hq
      exact ((by omega : False)).elim
  · obtain ⟨r, hr, rfl⟩ : ∃ r, r < 13 ∧ q = 7 + va.length + r :=
      ⟨q - 7 - va.length, by omega, by omega⟩
    have hidx : 7 + va.length + r - 7 - va.length = r := by omega
    rw [hidx]
    interval_cases r <;> simp [jsonMid1] <;> omega
  · constructor
    · intro hq
      exact absurd (List.getElem?_mem hq) hb
    · intro hq
      exact ((by omega : False)).elim
  · obtain ⟨r, hr, rfl⟩ : ∃ r, r < 15 ∧ q = 20 + va.length + vb.length + r :=
      ⟨q - 20 - va.length - vb.length, by omega, by omega⟩
    have hidx : 20 + va.length + vb.length + r - 20 - va.length - vb.length = r := by
      omega
    rw [hidx]
    interval_cases r <;> simp [jsonMid2] <;> omega
  · constructor
    · intro hq
      exact absurd (List.getElem?_mem hq) hc
    · intro hq
      exact ((by omega : False)).elim
  · obtain ⟨r, rfl⟩ : ∃ r, q = 35 + va.length + vb.length + vc.length + r :=
      ⟨q - 35 - va.length - vb.length - vc.length, by omega⟩
    have hidx : 35 + va.length + vb.length + vc.length + r
        - 35 - va.length - vb.length - vc.length = r := by omega
    rw [hidx]
    match r with
    | 0 => simp [jsonSuf]
    | 1 => simp [jsonSuf]; omega
    | r + 2 =>
        have : jsonSuf[r + 2]? = none := by
          rw [List.getElem?_eq_none]
          simp [jsonSuf_length]
        rw [this]
        simp
        omega

/-- The closing brace is the only `125` byte of the serialized object when
the values avoid it (base64 values do). -/
theorem render_rbrace (va vb vc : List Nat)
    (ha : 125 ∉ va) (hb : 125 ∉ vb) (hc : 125 ∉ vc) (q : Nat)
    (h : (render va vb vc)[q]? = some 125) :
    q = 36 + va.length + vb.length + vc.length := by
  rw [render_getElem] at h
  split_ifs at h with h1 h2 h3 h4 h5 h6
  · interval_cases q <;> simp [jsonPre] at h
  · exact absurd (List.getElem?_mem h) ha
  · obtain ⟨r, hr, rfl⟩ : ∃ r, r < 13 ∧ q = 7 + va.length + r :=
      ⟨q - 7 - va.length, by omega, by omega⟩
    have hidx : 7 + va.length + r - 7 - va.length = r := by omega
    rw [hidx] at h
    interval_cases r <;> simp [jsonMid1] at h
  · exact absurd (List.getElem?_mem h) hb
  · obtain ⟨r, hr, rfl⟩ : ∃ r, r < 15 ∧ q = 20 + va.length + vb.length + r :=
      ⟨q - 20 - va.length - vb.length, by omega, by omega⟩
    have hidx : 20 + va.length + vb.length + r - 20 - va.length - vb.length = r := by
      omega
    rw [hidx] at h
    interval_cases r <;> simp [jsonMid2] at h
  · exact absurd (List.getElem?_mem h) hc
  · obtain ⟨r, rfl⟩ : ∃ r, q = 35 + va.length + vb.length + vc.length + r :=
      ⟨q - 35 - va.length - vb.length - vc.length, by omega⟩
    have hidx : 35 + va.length + vb.length + vc.length + r
        - 35 - va.length - vb.length - vc.length = r := by omega
    rw [hidx] at h
    match r, h with
    | 0, h => simp [jsonSuf] at h
    | 1, h => omega
    | r + 2, h =>
        rw [List.getElem?_eq_none (by simp [jsonSuf_length])] at h
        exact absurd h (by simp)

/-- The serialized object ends with the closing brace. -/
theorem render_getLast (va vb vc : List Nat) :
    (render va vb vc).getLast? = some 125 := by
  unfold render
  simp [List.getLast?_append, jsonSuf]

theorem rigid_fieldA (A B C A2 B2 C2 i n : Nat) (hn : n ≤ 2)
    (hiff : ∀ q, ¬ (i ≤ q ∧ q < i + n) → (Qmem A B C q ↔ Qmem A2 B2 C2 q))
    (hlt : A < A2) : False := by
  have h1 : i ≤ 7 + A ∧ 7 + A < i + n := by
    by_contra hc
    have h := (hiff (7 + A) hc).mp (by unfold Qmem; omega)
    unfold Qmem at h
    omega
  by_cases hA2 : A2 = A + 2
  · have h3 : i ≤ 11 + A ∧ 11 + A < i + n := by
      by_contra hc
      have h := (hiff (11 + A) hc).mpr (by unfold Qmem; omega)
      unfold Qmem at h
      omega
    omega
  · have h2 : i ≤ 9 + A ∧ 9 + A < i + n := by
      by_contra hc
      have h := (hiff (9 + A) hc).mp (by unfold Qmem; omega)
      unfold Qmem at h
      omega
    omega

theorem rigid_fieldB (A B C B2 C2 i n : Nat) (hn : n ≤ 2)
    (hiff : ∀ q, ¬ (i ≤ q ∧ q < i + n) → (Qmem A B C q ↔ Qmem A B2 C2 q))
    (hlt : B < B2) : False := by
  have h1 : i ≤ 20 + A + B ∧ 20 + A + B < i + n := by
    by_contra hc
    have h := (hiff (20 + A + B) hc).mp (by unfold Qmem; omega)
    unfold Qmem at h
    omega
  by_cases hB2 : B2 = B + 2
  · have h3 : i ≤ 24 + A + B ∧ 24 + A + B < i + n := by
      by_contra hc
      have h := (hiff (24 + A + B) hc).mpr (by unfold Qmem; omega)
      unfold Qmem at h
      omega
    omega
  · have h2 : i ≤ 22 + A + B ∧ 22 + A + B < i + n := by
      by_contra hc
      have h := (hiff (22 + A + B) hc).mp (by unfold Qmem; omega)
      unfold Qmem at h
      omega
    omega

theorem getElem?_outside_window {α : Type} (U V V2 W : List α)
    (hVl : V.length = V2.length) (q : Nat)
    (h : q < U.length ∨ U.length + V.length ≤ q) :
    (U ++ V ++ W)[q]? = (U ++ V2 ++ W)[q]? := by
  rw [List.append_assoc, List.append_assoc]
  rcases h with h | h
  · rw [List.getElem?_append_left h, List.getElem?_append_left h]
  · rw [List.getElem?_append_right (by omega : U.length ≤ q),
        List.getElem?_append_right (by omega : U.length ≤ q),
        List.getElem?_append_right (by omega : V.length ≤ q - U.length),
        List.getElem?_append_right (by omega : V2.length ≤ q - U.length), hVl]

/-- Rigidity of the serialized object: two serializations that differ only
inside a window of at most two adjacent bytes agree on at least two of the
three values. -/
theorem render_rigid (va vb vc va2 vb2 vc2 U V V2 W : List Nat)
    (ha : 34 ∉ va) (hb : 34 ∉ vb) (hc : 34 ∉ vc)
    (ha2 : 34 ∉ va2) (hb2 : 34 ∉ vb2) (hc2 : 34 ∉ vc2)
    (hJ : render va vb vc = U ++ V ++ W)
    (hJ2 : render va2 vb2 vc2 = U ++ V2 ++ W)
    (hVl : V.length = V2.length) (hV2 : V.length ≤ 2) :
    (va = va2 ∧ vb = vb2) ∨ (va = va2 ∧ vc = vc2) ∨ (vb = vb2 ∧ vc = vc2) := by
  have hout : ∀ q, ¬ (U.length ≤ q ∧ q < U.length + V.length) →
      (render va vb vc)[q]? = (render va2 vb2 vc2)[q]? := by
    intro q hq
    rw [hJ, hJ2]
    exact getElem?_outside_window U V V2 W hVl q (by omega)
  have hlen : (render va vb vc).length = (render va2 vb2 vc2).length := by
    rw [hJ, hJ2]
    simp [hVl]
  rw [render_length, render_length] at hlen
  have hiff : ∀ q, ¬ (U.length ≤ q ∧ q < U.length + V.length) →
      (Qmem va.length vb.length vc.length q ↔ Qmem va2.length vb2.length vc2.length q) := by
    intro q hq
    rw [← render_quote_iff va vb vc ha hb hc q,
        ← render_quote_iff va2 vb2 vc2 ha2 hb2 hc2 q, hout q hq]
  have hA : va.length = va2.length := by
    rcases Nat.lt_trichotomy va.length va2.length with h | h | h
    · exact absurd (rigid_fieldA va.length vb.length vc.length
        va2.length vb2.length vc2.length U.length V.length hV2 hiff h) (by simp)
    · exact h
    · refine absurd (rigid_fieldA va2.length vb2.length vc2.length
        va.length vb.length vc.length U.length V.length hV2 ?_ h) (by simp)
      intro q hq
      exact (hiff q hq).symm
  have hB : vb.length = vb2.length := by
    have hiffB : ∀ q, ¬ (U.length ≤ q ∧ q < U.length + V.length) →
        (Qmem va.length vb.length vc.length q
          ↔ Qmem va.length vb2.length vc2.length q) := by
      intro q hq
      rw [hA] at hiff ⊢
      exact hiff q hq
    rcases Nat.lt_trichotomy vb.length vb2.length with h | h | h
    · exact absurd (rigid_fieldB va.length vb.length vc.length
        vb2.length vc2.length U.length V.length hV2 hiffB h) (by simp)
    · exact h
    · refine absurd (rigid_fieldB va.length vb2.length vc2.length
        vb.length vc.length U.length V.length hV2 ?_ h) (by simp)
      intro q hq
      exact (hiffB q hq).symm
  have hC : vc.length = vc2.length := by omega
  -- with equal lengths, a field away from the window is unchanged
  have haeq : (U.length + V.length ≤ 7 ∨ 7 + va.length ≤ U.length) → va = va2 := by
    intro hmiss
    apply List.ext_getElem?
    intro k
    by_cases hk : k < va.length
    · have e := hout (7 + k) (by omega)
      rw [render_getElem, render_getElem] at e
      rw [if_neg (by omega), if_pos (by omega), if_neg (by omega),
          if_pos (by omega)] at e
      have hidx : 7 + k - 7 = k := by omega
      rw [hidx] at e
      exact e
    · rw [List.getElem?_eq_none (by omega), List.getElem?_eq_none (by omega)]
  have hbeq : (U.length + V.length ≤ 20 + va.length
      ∨ 20 + va.length + vb.length ≤ U.length) → vb = vb2 := by
    intro hmiss
    apply List.ext_getElem?
    intro k
    by_cases hk : k < vb.length
    · have e := hout (20 + va.length + k) (by omega)
      rw [render_getElem, render_getElem] at e
      rw [if_neg (by omega), if_neg (by omega), if_neg (by omega),
          if_pos (by omega), if_neg (by omega), if_neg (by omega),
          if_neg (by omega), if_pos (by omega)] at e
      have hidx : 20 + va.length + k - 20 - va.length = k := by omega
      rw [hidx] at e
      rw [hA] at e
      have hidx2 : 20 + va2.length + k - 20 - va2.length = k := by omega
      rw [hidx2] at e
      exact e
    · rw [List.getElem?_eq_none (by omega), List.getElem?_eq_none (by omega)]
  have hceq : (U.length + V.length ≤ 35 + va.length + vb.length
      ∨ 35 + va.length + vb.length + vc.length ≤ U.length) → vc = vc2 := by
    intro hmiss
    apply List.ext_getElem?
    intro k
    by_cases hk : k < vc.length
    · have e := hout (35 + va.length + vb.length + k) (by omega)
      rw [render_getElem, render_getElem] at e
      rw [if_neg (by omega), if_neg (by omega), if_neg (by omega),
          if_neg (by omega), if_neg (by omega), if_pos (by omega),
          if_neg (by omega), if_neg (by omega), if_neg (by omega),
          if_neg (by omega), if_neg (by omega), if_pos (by omega)] at e
      have hidx : 35 + va.length + vb.length + k - 35 - va.length - vb.length = k := by
        omega
      rw [hidx] at e
      rw [hA, hB] at e
      have hidx2 : 35 + va2.length + vb2.length + k
          - 35 - va2.length - vb2.length = k := by omega
      rw [hidx2] at e
      exact e
    · rw [List.getElem?_eq_none (by omega), List.getElem?_eq_none (by omega)]
  by_cases hra : U.length + V.length ≤ 7 ∨ 7 + va.length ≤ U.length
  · by_cases hrb : U.length + V.length ≤ 20 + va.length
        ∨ 20 + va.length + vb.length ≤ U.length
    · exact Or.inl ⟨haeq hra, hbeq hrb⟩
    · exact Or.inr (Or.inl ⟨haeq hra, hceq (by omega)⟩)
  · exact Or.inr (Or.inr ⟨hbeq (by omega), hceq (by omega)⟩)

theorem b64encode_eq (bs : List Nat) :
    b64encode bs = (encVals bs).map b64chr
      ++ List.replicate (b64pads bs.length) 61 := rfl

theorem encVals_lt (bs : List Nat) : ∀ v ∈ encVals bs, v < 64 := sixChunks_lt _

theorem encVals_flatten (bs : List Nat) :
    ((encVals bs).map sixBits).flatten
      = bytesToBits bs ++ List.replicate (2 * b64pads bs.length) false := by
  apply flatten_sixChunks
  simp only [List.length_append, List.length_replicate, bytesToBits_length]
  unfold b64pads
  omega

theorem encVals_length6 (bs : List Nat) :
    6 * (encVals bs).length = 8 * bs.length + 2 * b64pads bs.length := by
  unfold encVals
  rw [sixChunks_length]
  simp only [List.length_append, List.length_replicate, bytesToBits_length]
  unfold b64pads
  omega

theorem map_b64chr_ne61 (l : List Nat) (h : ∀ v ∈ l, v < 64) :
    ∀ x ∈ l.map b64chr, (fun y => y != 61) x = true := by
  intro x hx
  rcases List.mem_map.mp hx with ⟨v, hv, rfl⟩
  have := (b64chr_facts v (h v hv)).2.1
  simpa using this

/-- Decoding well-formed digits followed by padding. -/
theorem b64decode_map_pads (vals2 : List Nat) (np : Nat) (h : ∀ v ∈ vals2, v < 64) :
    b64decode (vals2.map b64chr ++ List.replicate np 61)
      = bitsToBytes ((vals2.map sixBits).flatten) := by
  unfold b64decode
  rw [takeWhile_append_all _ _ (map_b64chr_ne61 vals2 h), takeWhile_replicate61,
      List.append_nil, filterMap_b64val_map _ h]

/-- Decoding stops at the first `'='`. -/
theorem b64decode_map_eq61 (v1 rest : List Nat) (h1 : ∀ v ∈ v1, v < 64) :
    b64decode (v1.map b64chr ++ 61 :: rest)
      = bitsToBytes ((v1.map sixBits).flatten) := by
  unfold b64decode
  rw [takeWhile_append_all _ _ (map_b64chr_ne61 v1 h1)]
  rw [List.takeWhile_cons]
  simp only [bne_self_eq_false, Bool.false_eq_true, if_false, List.append_nil]
  rw [filterMap_b64val_map _ h1]

/-- A character outside the alphabet in the middle is skipped. -/
theorem b64decode_map_invalid (v1 v2 : List Nat) (c2 np : Nat)
    (h1 : ∀ v ∈ v1, v < 64) (h2 : ∀ v ∈ v2, v < 64)
    (hc : b64val c2 = none) (hc61 : c2 ≠ 61) :
    b64decode (v1.map b64chr ++ c2 :: (v2.map b64chr ++ List.replicate np 61))
      = bitsToBytes (((v1 ++ v2).map sixBits).flatten) := by
  unfold b64decode
  rw [takeWhile_append_all _ _ (map_b64chr_ne61 v1 h1)]
  rw [List.takeWhile_cons]
  have : (c2 != 61) = true := by simpa using hc61
  rw [this]
  simp only [if_true]
  rw [takeWhile_append_all _ _ (map_b64chr_ne61 v2 h2), takeWhile_replicate61,
      List.append_nil]
  rw [List.filterMap_append, List.filterMap_cons, hc,
      filterMap_b64val_map _ h1, filterMap_b64val_map _ h2]

theorem flatten_sixBits_take (l : List Nat) (j : Nat) :
    ((l.take j).map sixBits).flatten = ((l.map sixBits).flatten).take (6 * j) := by
  induction l generalizing j with
  | nil => simp
  | cons x r ih =>
      cases j with
      | zero => simp
      | succ m =>
          simp only [List.take_succ_cons, List.map_cons, List.flatten_cons]
          rw [ih m, List.take_append_eq_append_take]
          have h6 : (sixBits x).length = 6 := rfl
          rw [List.take_of_length_le (l := sixBits x) (by rw [h6]; omega)]
          rw [h6, (by omega : 6 * (m + 1) - 6 = 6 * m)]

theorem flatten_sixBits_drop (l : List Nat) (j : Nat) :
    ((l.drop j).map sixBits).flatten = ((l.map sixBits).flatten).drop (6 * j) := by
  induction l generalizing j with
  | nil => simp
  | cons x r ih =>
      cases j with
      | zero => simp
      | succ m =>
          simp only [List.drop_succ_cons, List.map_cons, List.flatten_cons]
          rw [ih m, List.drop_append_eq_append_drop]
          have h6 : (sixBits x).length = 6 := rfl
          rw [List.drop_of_length_le (l := sixBits x) (by rw [h6]; omega)]
          rw [h6, (by omega : 6 * (m + 1) - 6 = 6 * m), List.nil_append]

theorem bitsToBytes_byteBits_append (x : Nat) (y : List Bool) :
    bitsToBytes (byteBits x ++ y)
      = byteVal (x.testBit 7) (x.testBit 6) (x.testBit 5) (x.testBit 4)
          (x.testBit 3) (x.testBit 2) (x.testBit 1) (x.testBit 0) :: bitsToBytes y := rfl

theorem bitsToBytes_take_bytesToBits (bs : List Nat) (hb : ∀ x ∈ bs, x < 256)
    (m : Nat) :
    bitsToBytes ((bytesToBits bs).take m) = bs.take (m / 8) := by
  induction bs generalizing m with
  | nil => simp [bytesToBits, bitsToBytes]
  | cons x r ih =>
      rw [bytesToBits_cons]
      by_cases h8 : 8 ≤ m
      · rw [List.take_append_eq_append_take,
            List.take_of_length_le (l := byteBits x) (by simp [byteBits]; omega)]
        have hlb : (byteBits x).length = 8 := rfl
        rw [hlb, bitsToBytes_byteBits_append, byteVal_bits x (hb x (by simp)),
            ih (fun y hy => hb y (by simp [hy])) (m - 8)]
        have hm : m / 8 = (m - 8) / 8 + 1 := by omega
        rw [hm, List.take_succ_cons]
      · rw [List.take_append_of_le_length (by simp [byteBits]; omega)]
        rw [bitsToBytes_short _ (by
          have := List.length_take m (byteBits x)
          simp [byteBits] at this ⊢
          omega)]
        have hm : m / 8 = 0 := by omega
        rw [hm, List.take_zero]

/-- A proper prefix of a serialized object never parses: it cannot end with
the closing brace. -/
theorem parse_prefix_fail (va vb vc : List Nat)
    (ha : 125 ∉ va) (hb : 125 ∉ vb) (hc : 125 ∉ vc)
    (k : Nat) (hk : k < (render va vb vc).length)
    (a2 b2 c2 : List Nat)
    (hp : parseBlob ((render va vb vc).take k) = some (a2, b2, c2)) : False := by
  obtain ⟨hr, _, _, _⟩ := parseBlob_sound _ _ _ _ hp
  by_cases hk0 : k = 0
  · subst hk0
    simp only [List.take_zero] at hr
    have hl := render_length a2 b2 c2
    rw [← hr] at hl
    simp at hl
    omega
  · have hlen : ((render va vb vc).take k).length = k := by
      rw [List.length_take]
      omega
    have hlast := render_getLast a2 b2 c2
    rw [← hr, List.getLast?_eq_getElem?, hlen,
        List.getElem?_take_of_lt (by omega)] at hlast
    have hq := render_rbrace va vb vc ha hb hc (k - 1) hlast
    rw [render_length] at hk
    omega

theorem exists_cons8 (l : List Bool) (h : 8 ≤ l.length) :
    ∃ p7 p6 p5 p4 p3 p2 p1 p0 t,
      l = p7 :: p6 :: p5 :: p4 :: p3 :: p2 :: p1 :: p0 :: t := by
  match l with
  | p7 :: p6 :: p5 :: p4 :: p3 :: p2 :: p1 :: p0 :: t =>
      exact ⟨p7, p6, p5, p4, p3, p2, p1, p0, t, rfl⟩
  | [] | [_] | [_, _] | [_, _, _] | [_, _, _, _] | [_, _, _, _, _]
  | [_, _, _, _, _, _] | [_, _, _, _, _, _, _] =>
      simp only [List.length_cons, List.length_nil] at h
      omega

theorem byte8_append_left (x y : List Bool) (h : 8 ≤ x.length) :
    byte8 (x ++ y) = byte8 x := by
  obtain ⟨p7, p6, p5, p4, p3, p2, p1, p0, t, rfl⟩ := exists_cons8 x h
  rfl

theorem byteBits34 : byteBits 34
    = [false, false, true, false, false, false, true, false] := by decide

theorem byteBits125 : byteBits 125
    = [false, true, true, true, true, true, false, true] := by decide

/-- Dropping six bits anywhere from the bit stream of a serialization that
ends in `"}` produces a stream whose byte decoding does not end in the
closing brace. -/
theorem erase_getLast_ne (Y : List Nat) (z j : Nat)
    (hz2 : z % 2 = 0) (hz4 : z ≤ 4)
    (hj6 : 6 * j + 6 ≤ 8 * Y.length + 16 + z) :
    (bitsToBytes
        ((bytesToBits (Y ++ [34, 125]) ++ List.replicate z false).take (6 * j)
          ++ (bytesToBits (Y ++ [34, 125])
              ++ List.replicate z false).drop (6 * j + 6))).getLast?
      ≠ some 125 := by
  have h2b : bytesToBits [34, 125] = byteBits 34 ++ byteBits 125 := by
    simp [bytesToBits]
  have hsplit : bytesToBits (Y ++ [34, 125]) ++ List.replicate z false
      = bytesToBits Y ++ (byteBits 34 ++ byteBits 125 ++ List.replicate z false) := by
    rw [bytesToBits_append, h2b]
    simp [List.append_assoc]
  rw [hsplit]
  set T : List Bool := byteBits 34 ++ byteBits 125 ++ List.replicate z false with hT
  have hYlen : (bytesToBits Y).length = 8 * Y.length := bytesToBits_length Y
  have hTlen : T.length = 16 + z := by
    rw [hT, byteBits34, byteBits125]
    simp
    omega
  set X : List Bool := bytesToBits Y ++ T with hX
  have hXlen : X.length = 8 * Y.length + 16 + z := by
    rw [hX]
    simp [hYlen, hTlen]
    omega
  set bits2 : List Bool := X.take (6 * j) ++ X.drop (6 * j + 6) with hbits2
  have hb2len : bits2.length = 8 * Y.length + 10 + z := by
    rw [hbits2]
    simp only [List.length_append, List.length_take, List.length_drop, hXlen]
    omega
  have hbyteslen : (bitsToBytes bits2).length = Y.length + 1 := by
    rw [bitsToBytes_length, hb2len]
    omega
  rw [List.getLast?_eq_getElem?, hbyteslen]
  have hget := bitsToBytes_getElem bits2 (Y.length + 1 - 1) (by omega)
  rw [hget]
  have hdropX : X.drop (8 * Y.length) = T := by
    rw [hX, ← hYlen]
    exact List.drop_left _ _
  have hidx : 8 * (Y.length + 1 - 1) = 8 * Y.length := by omega
  rw [hidx]
  -- compute the last byte
  by_cases hcase : 6 * j ≤ 8 * Y.length
  · -- the erased window is before the final two bytes
    have hd : bits2.drop (8 * Y.length)
        = X.drop (8 * Y.length + 6) := by
      rw [hbits2, List.drop_append_eq_append_drop]
      rw [List.drop_of_length_le (by rw [List.length_take]; omega)]
      rw [List.nil_append, List.length_take, List.drop_drop]
      congr 1
      omega
    rw [hd]
    have hd2 : X.drop (8 * Y.length + 6) = T.drop 6 := by
      have : 8 * Y.length + 6 = (bytesToBits Y).length + 6 := by rw [hYlen]
      rw [hX, this, List.drop_append]
    rw [hd2]
    have hTd : T.drop 6 = true :: false :: false :: true :: true :: true :: true
        :: true :: (false :: true :: List.replicate z false) := by
      rw [hT, byteBits34, byteBits125]
      rfl
    rw [hTd]
    have hv : byte8 (true :: false :: false :: true :: true :: true :: true :: true
        :: (false :: true :: List.replicate z false)) = 159 := rfl
    rw [hv]
    simp
  · -- the erased window overlaps the final bytes
    have hdlt : 8 * Y.length < 6 * j := by omega
    obtain ⟨d, hd⟩ : ∃ d, 6 * j = 8 * Y.length + d := ⟨6 * j - 8 * Y.length, by omega⟩
    have hd2 : d % 2 = 0 := by omega
    have hdle : d + 6 ≤ 16 + z := by omega
    have hdge : 2 ≤ d := by omega
    have htake : (X.take (6 * j)).drop (8 * Y.length) = T.take d := by
      rw [List.drop_take, hdropX, hd]
      congr 1
      omega
    have hdrop : X.drop (6 * j + 6) = T.drop (d + 6) := by
      have : 6 * j + 6 = (bytesToBits Y).length + (d + 6) := by rw [hYlen]; omega
      rw [hX, this, List.drop_append]
    have hdec : bits2.drop (8 * Y.length)
        = T.take d ++ T.drop (d + 6) := by
      rw [hbits2, List.drop_append_eq_append_drop]
      rw [htake, hdrop]
      have : 8 * Y.length - (X.take (6 * j)).length = 0 := by
        rw [List.length_take]
        omega
      rw [this, List.drop_zero]
    rw [hdec]
    have hdcases : d = 2 ∨ d = 4 ∨ d = 6 ∨ 8 ≤ d := by omega
    have hTc : T = false :: false :: true :: false :: false :: false :: true :: false
        :: (false :: true :: true :: true :: true :: true :: false :: true
            :: List.replicate z false) := by
      rw [hT, byteBits34, byteBits125]
      rfl
    rcases hdcases with rfl | rfl | rfl | hd8
    · have hv : byte8 (T.take 2 ++ T.drop (2 + 6)) = 31 := by
        rw [hTc]
        rfl
      rw [hv]
      simp
    · have hv : byte8 (T.take 4 ++ T.drop (4 + 6)) = 47 := by
        rw [hTc]
        rfl
      rw [hv]
      simp
    · have hv : byte8 (T.take 6 ++ T.drop (6 + 6)) = 35 := by
        rw [hTc]
        rfl
      rw [hv]
      simp
    · have hltake : 8 ≤ (T.take d).length := by
        rw [List.length_take]
        omega
      rw [byte8_append_left _ _ hltake]
      obtain ⟨e, rfl⟩ : ∃ e, d = 8 + e := ⟨d - 8, by omega⟩
      rw [List.take_add, byte8_append_left _ _ (by rw [List.length_take]; omega)]
      have hv : byte8 (T.take 8) = 34 := by
        rw [hTc]
        rfl
      rw [hv]
      simp

theorem decryptData_parse_none (key blob : List Nat)
    (h : parseBlob (b64decode blob) = none) : decryptData key blob = none := by
  unfold decryptData
  rw [h]

theorem decryptData_parse_some (key blob a2 b2 c2 : List Nat)
    (h : parseBlob (b64decode blob) = some (a2, b2, c2)) :
    decryptData key blob
      = if b64decode b2 = gcmTag key (b64decode a2) (b64decode c2)
        then some (xorKs key (b64decode a2) 0 (b64decode c2))
        else none := by
  unfold decryptData
  rw [h]

/-- A byte string followed by one byte below 125 never parses: the final
byte is not the closing brace. -/
theorem parse_concat_fail (bs2 : List Nat) (w : Nat) (hw : w < 125)
    (a2 b2 c2 : List Nat) (hp : parseBlob (bs2 ++ [w]) = some (a2, b2, c2)) :
    False := by
  obtain ⟨hr, _, _, _⟩ := parseBlob_sound _ _ _ _ hp
  have hlast := render_getLast a2 b2 c2
  rw [← hr, List.getLast?_concat] at hlast
  injection hlast with hv
  omega

theorem byteVal_ff_lt (b5 b4 b3 b2 b1 b0 : Bool) :
    byteVal false false b5 b4 b3 b2 b1 b0 < 125 := by
  revert b5 b4 b3 b2 b1 b0
  decide

theorem byteVal_ffff_lt (b5 b4 b3 b2 : Bool) :
    byteVal false false false false b5 b4 b3 b2 < 125 := by
  revert b5 b4 b3 b2
  decide

/-- Decrypting any blob whose base64 decoding is the canonical serialization
for (key, iv, pt) yields pt. -/
theorem decryptData_of_decode (key iv pt blob2 : List Nat)
    (hkey : ∀ x ∈ key, x < 256) (hiv : ∀ x ∈ iv, x < 256) (hpt : ∀ x ∈ pt, x < 256)
    (h : b64decode blob2
      = render (b64encode iv) (b64encode (gcmTag key iv (xorKs key iv 0 pt)))
          (b64encode (xorKs key iv 0 pt))) :
    decryptData key blob2 = some pt := by
  have hct : ∀ x ∈ xorKs key iv 0 pt, x < 256 := xorKs_lt key iv 0 pt hpt
  have htag : ∀ x ∈ gcmTag key iv (xorKs key iv 0 pt), x < 256 := by
    intro x hx
    unfold gcmTag at hx
    simp only [List.append_assoc, List.mem_append] at hx
    rcases hx with h1 | h1 | h1
    · exact hkey x h1
    · exact hiv x h1
    · exact hct x h1
  rw [decryptData_parse_some key blob2 _ _ _ (by
    rw [h]
    exact parseBlob_render _ _ _
      (b64encode_no_quote _) (b64encode_no_quote _) (b64encode_no_quote _))]
  rw [b64decode_b64encode iv hiv, b64decode_b64encode _ htag, b64decode_b64encode _ hct]
  rw [if_pos rfl, xorKs_xorKs]

/-- The authentication argument: if a corrupted serialization still parses
and differs from the genuine one only inside a two-byte window, a
successful tag check forces the recovered plaintext to be the original. -/
theorem window_auth (key iv pt : List Nat)
    (hkey : ∀ x ∈ key, x < 256) (hiv : ∀ x ∈ iv, x < 256) (hpt : ∀ x ∈ pt, x < 256)
    (U V V2 W : List Nat)
    (hbsU : render (b64encode iv) (b64encode (gcmTag key iv (xorKs key iv 0 pt)))
        (b64encode (xorKs key iv 0 pt)) = U ++ V ++ W)
    (hVl : V.length = V2.length) (hV2 : V.length ≤ 2)
    (a2 b2 c2 : List Nat)
    (hp : parseBlob (U ++ V2 ++ W) = some (a2, b2, c2))
    (Q : List Nat)
    (hQ2 : (if b64decode b2 = gcmTag key (b64decode a2) (b64decode c2)
        then some (xorKs key (b64decode a2) 0 (b64decode c2)) else none) = some Q) :
    Q = pt := by
  have hct : ∀ x ∈ xorKs key iv 0 pt, x < 256 := xorKs_lt key iv 0 pt hpt
  have htag : ∀ x ∈ gcmTag key iv (xorKs key iv 0 pt), x < 256 := by
    intro x hx
    unfold gcmTag at hx
    simp only [List.append_assoc, List.mem_append] at hx
    rcases hx with h1 | h1 | h1
    · exact hkey x h1
    · exact hiv x h1
    · exact hct x h1
  obtain ⟨hr2, hqa2, hqb2, hqc2⟩ := parseBlob_sound _ _ _ _ hp
  have hrigid := render_rigid _ _ _ a2 b2 c2 U V V2 W
    (b64encode_no_quote _) (b64encode_no_quote _) (b64encode_no_quote _)
    hqa2 hqb2 hqc2 hbsU hr2.symm hVl hV2
  split_ifs at hQ2 with hcond
  injection hQ2 with hQv
  rcases hrigid with ⟨haa, hbb⟩ | ⟨haa, hcc⟩ | ⟨hbb, hcc⟩
  · rw [← haa, ← hbb, b64decode_b64encode iv hiv, b64decode_b64encode _ htag] at hcond
    unfold gcmTag at hcond
    have hctc := List.append_cancel_left hcond
    rw [← hQv, ← haa, b64decode_b64encode iv hiv, ← hctc, xorKs_xorKs]
  · rw [← hQv, ← haa, ← hcc, b64decode_b64encode iv hiv, b64decode_b64encode _ hct,
        xorKs_xorKs]
  · rw [← hbb, ← hcc, b64decode_b64encode _ htag, b64decode_b64encode _ hct] at hcond
    unfold gcmTag at hcond
    have hiveq : iv = b64decode a2 := by
      have h1 := List.append_cancel_right hcond
      exact List.append_cancel_left h1
    rw [← hQv, ← hcc, b64decode_b64encode _ hct, ← hiveq, xorKs_xorKs]

/-- Corrupting a data character into the padding character truncates the
decoded stream, and a truncated serialization never parses. -/
theorem decrypt_trunc_fail (key iv pt bs : List Nat)
    (hbs : bs = render (b64encode iv) (b64encode (gcmTag key iv (xorKs key iv 0 pt)))
        (b64encode (xorKs key iv 0 pt)))
    (hbsb : ∀ x ∈ bs, x < 256)
    (j : Nat) (hjv : j < (encVals bs).length) (rest : List Nat) (Q : List Nat)
    (hQ : decryptData key (((encVals bs).take j).map b64chr ++ 61 :: rest) = some Q) :
    False := by
  have hlen6 := encVals_length6 bs
  have hnp2 : b64pads bs.length ≤ 2 := by unfold b64pads; omega
  have hdec : b64decode (((encVals bs).take j).map b64chr ++ 61 :: rest)
      = bs.take (6 * j / 8) := by
    rw [b64decode_map_eq61 _ _ (fun v hv => encVals_lt bs v (List.mem_of_mem_take hv))]
    rw [flatten_sixBits_take, encVals_flatten]
    rw [List.take_append_of_le_length (by rw [bytesToBits_length]; omega)]
    exact bitsToBytes_take_bytesToBits bs hbsb (6 * j)
  rcases hp : parseBlob (bs.take (6 * j / 8)) with _ | ⟨a2, b2, c2x⟩
  · rw [decryptData_parse_none _ _ (by rw [hdec]; exact hp)] at hQ
    exact Option.noConfusion hQ
  · rw [hbs] at hp
    exact parse_prefix_fail _ _ _ (b64encode_no_rbrace _) (b64encode_no_rbrace _)
      (b64encode_no_rbrace _) (6 * j / 8) (by rw [← hbs]; omega) a2 b2 c2x hp

/-- Corrupting a data character into a byte outside the alphabet (other than
the padding character) deletes six bits from the decoded stream; the decoded
byte string then cannot end with the closing brace, so it never parses. -/
theorem decrypt_invalid_fail (key iv pt bs : List Nat)
    (hbs : bs = render (b64encode iv) (b64encode (gcmTag key iv (xorKs key iv 0 pt)))
        (b64encode (xorKs key iv 0 pt)))
    (j : Nat) (hjv : j < (encVals bs).length) (c2 : Nat)
    (h64 : b64val c2 = none) (h61 : c2 ≠ 61) (Q : List Nat)
    (hQ : decryptData key (((encVals bs).take j).map b64chr
        ++ c2 :: (((encVals bs).drop (j + 1)).map b64chr
            ++ List.replicate (b64pads bs.length) 61)) = some Q) :
    False := by
  have hlen6 := encVals_length6 bs
  have hnp2 : b64pads bs.length ≤ 2 := by unfold b64pads; omega
  have hdec : b64decode (((encVals bs).take j).map b64chr
      ++ c2 :: (((encVals bs).drop (j + 1)).map b64chr
          ++ List.replicate (b64pads bs.length) 61))
      = bitsToBytes ((((encVals bs).map sixBits).flatten).take (6 * j)
          ++ (((encVals bs).map sixBits).flatten).drop (6 * j + 6)) := by
    rw [b64decode_map_invalid _ _ _ _
        (fun v hv => encVals_lt bs v (List.mem_of_mem_take hv))
        (fun v hv => encVals_lt bs v (List.mem_of_mem_drop hv)) h64 h61]
    rw [List.map_append, List.flatten_append]
    rw [flatten_sixBits_take, flatten_sixBits_drop]
    rw [(by omega : 6 * (j + 1) = 6 * j + 6)]
  obtain ⟨Y0, hY0⟩ : ∃ Y0, bs = Y0 ++ [34, 125] := by
    refine ⟨jsonPre ++ b64encode iv ++ jsonMid1
        ++ b64encode (gcmTag key iv (xorKs key iv 0 pt)) ++ jsonMid2
        ++ b64encode (xorKs key iv 0 pt), ?_⟩
    rw [hbs]
    rfl
  have hY0len : bs.length = Y0.length + 2 := by rw [hY0]; simp
  have herase := erase_getLast_ne Y0 (2 * b64pads bs.length) j
    (by omega) (by omega) (by omega)
  rw [← hY0] at herase
  rw [← encVals_flatten bs] at herase
  rcases hp : parseBlob (bitsToBytes ((((encVals bs).map sixBits).flatten).take (6 * j)
      ++ (((encVals bs).map sixBits).flatten).drop (6 * j + 6))) with _ | ⟨a2, b2, c2x⟩
  · rw [decryptData_parse_none _ _ (by rw [hdec]; exact hp)] at hQ
    exact Option.noConfusion hQ
  · obtain ⟨hr2, _, _, _⟩ := parseBlob_sound _ _ _ _ hp
    have hlast := render_getLast a2 b2 c2x
    rw [← hr2] at hlast
    exact herase hlast

/-- Corrupting a data character into another alphabet character changes at
most two adjacent bytes of the decoded serialization; if the result still
parses and passes the tag check, the recovered plaintext is the original. -/
theorem decrypt_alpha_eq (key iv pt bs : List Nat)
    (hkey : ∀ x ∈ key, x < 256) (hiv : ∀ x ∈ iv, x < 256) (hpt : ∀ x ∈ pt, x < 256)
    (hbs : bs = render (b64encode iv) (b64encode (gcmTag key iv (xorKs key iv 0 pt)))
        (b64encode (xorKs key iv 0 pt)))
    (hbsb : ∀ x ∈ bs, x < 256)
    (j : Nat) (hjv : j < (encVals bs).length) (c2 v2 : Nat)
    (h64 : b64val c2 = some v2) (Q : List Nat)
    (hQ : decryptData key (((encVals bs).take j).map b64chr
        ++ c2 :: (((encVals bs).drop (j + 1)).map b64chr
            ++ List.replicate (b64pads bs.length) 61)) = some Q) :
    Q = pt := by
  obtain ⟨hc2eq, hv2lt⟩ := b64val_inv _ _ h64
  have hdecbs : bitsToBytes (((encVals bs).map sixBits).flatten) = bs := by
    have h := b64decode_b64encode bs hbsb
    rw [b64encode_eq bs, b64decode_map_pads _ _ (encVals_lt bs)] at h
    exact h
  have hdec : b64decode (((encVals bs).take j).map b64chr
      ++ c2 :: (((encVals bs).drop (j + 1)).map b64chr
          ++ List.replicate (b64pads bs.length) 61))
      = bitsToBytes ((((encVals bs).take j).map sixBits).flatten
          ++ sixBits v2 ++ (((encVals bs).drop (j + 1)).map sixBits).flatten) := by
    rw [← hc2eq]
    have hform : ((encVals bs).take j).map b64chr
        ++ b64chr v2 :: (((encVals bs).drop (j + 1)).map b64chr
            ++ List.replicate (b64pads bs.length) 61)
        = ((encVals bs).take j ++ v2 :: (encVals bs).drop (j + 1)).map b64chr
          ++ List.replicate (b64pads bs.length) 61 := by
      simp
    rw [hform, b64decode_map_pads _ _ (by
      intro v hv
      rcases List.mem_append.mp hv with h1 | h1
      · exact encVals_lt bs v (List.mem_of_mem_take h1)
      · rcases List.mem_cons.mp h1 with h2 | h2
        · rw [h2]
          exact hv2lt
        · exact encVals_lt bs v (List.mem_of_mem_drop h2))]
    rw [List.map_append, List.flatten_append, List.map_cons, List.flatten_cons]
    rw [List.append_assoc]
  have hvdec : encVals bs = (encVals bs).take j
      ++ (encVals bs)[j] :: (encVals bs).drop (j + 1) := by
    conv_lhs => rw [← List.take_append_drop j (encVals bs)]
    rw [← List.getElem_cons_drop (encVals bs) j hjv]
  have hbs_form : render (b64encode iv) (b64encode (gcmTag key iv (xorKs key iv 0 pt)))
      (b64encode (xorKs key iv 0 pt))
      = bitsToBytes ((((encVals bs).take j).map sixBits).flatten
          ++ sixBits (encVals bs)[j]
          ++ (((encVals bs).drop (j + 1)).map sixBits).flatten) := by
    rw [← hbs]
    conv_lhs => rw [← hdecbs, hvdec]
    rw [List.map_append, List.flatten_append, List.map_cons, List.flatten_cons,
        ← List.append_assoc]
  obtain ⟨U, V, V2, W, hw1, hw2, hwl, hwle⟩ := bitsToBytes_window
    ((((encVals bs).take j).map sixBits).flatten)
    (sixBits (encVals bs)[j]) (sixBits v2)
    ((((encVals bs).drop (j + 1)).map sixBits).flatten) rfl rfl
  rw [hw1] at hbs_form
  rcases hp : parseBlob (U ++ V2 ++ W) with _ | ⟨a2, b2, c2x⟩
  · rw [decryptData_parse_none _ _ (by rw [hdec, hw2]; exact hp)] at hQ
    exact Option.noConfusion hQ
  · rw [decryptData_parse_some _ _ a2 b2 c2x (by rw [hdec, hw2]; exact hp)] at hQ
    exact window_auth key iv pt hkey hiv hpt U V V2 W hbs_form hwl hwle
      a2 b2 c2x hp Q hQ

/-- Decrypting any single-bit corruption of an encrypted blob either fails
or returns the original plaintext, never an altered one. -/
theorem flip_decrypt_eq (key iv pt : List Nat)
    (hkey : ∀ x ∈ key, x < 256) (hiv : ∀ x ∈ iv, x < 256)
    (hpt : ∀ x ∈ pt, x < 256)
    (i : Nat) (Q : List Nat)
    (hQ : decryptData key (flipBit (encryptData key iv pt) i) = some Q) :
    Q = pt := by
  obtain ⟨bs, hbs⟩ : ∃ bs, bs = render (b64encode iv)
      (b64encode (gcmTag key iv (xorKs key iv 0 pt)))
      (b64encode (xorKs key iv 0 pt)) := ⟨_, rfl⟩
  have henc : encryptData key iv pt = b64encode bs := by rw [hbs]; rfl
  have hbsb : ∀ x ∈ bs, x < 256 := by
    rw [hbs]
    exact render_mem_lt _ _ _ (b64encode_mem_lt _) (b64encode_mem_lt _)
      (b64encode_mem_lt _)
  have hlen6 := encVals_length6 bs
  have hnp2 : b64pads bs.length ≤ 2 := by unfold b64pads; omega
  have hdecbs : bitsToBytes (((encVals bs).map sixBits).flatten) = bs := by
    have h := b64decode_b64encode bs hbsb
    rw [b64encode_eq bs, b64decode_map_pads _ _ (encVals_lt bs)] at h
    exact h
  rw [henc] at hQ
  obtain ⟨j, t, ht8, rfl⟩ : ∃ j t, t < 8 ∧ i = 8 * j + t :=
    ⟨i / 8, i % 8, Nat.mod_lt _ (by omega), by omega⟩
  have hdiv : (8 * j + t) / 8 = j := by omega
  have hmod : (8 * j + t) % 8 = t := by omega
  unfold flipBit at hQ
  rw [hdiv, hmod] at hQ
  by_cases hjin : j < (b64encode bs).length
  · by_cases hjv : j < (encVals bs).length
    · -- a data character is corrupted
      have hgetc : (b64encode bs).getD j 0 = b64chr (encVals bs)[j] := by
        rw [b64encode_eq, List.getD_eq_getElem?_getD,
            List.getElem?_append_left (by simpa using hjv),
            List.getElem?_map, List.getElem?_eq_getElem hjv]
        rfl
      have hsetd : (b64encode bs).set j (b64chr (encVals bs)[j] ^^^ 2 ^ t)
          = ((encVals bs).take j).map b64chr
            ++ (b64chr (encVals bs)[j] ^^^ 2 ^ t)
              :: (((encVals bs).drop (j + 1)).map b64chr
                  ++ List.replicate (b64pads bs.length) 61) := by
        rw [b64encode_eq,
            List.set_append_left _ _ (by simpa using hjv),
            List.set_eq_take_append_cons_drop, if_pos (by simpa using hjv),
            ← List.map_take, ← List.map_drop]
        simp
      rw [hgetc, hsetd] at hQ
      rcases h64 : b64val (b64chr (encVals bs)[j] ^^^ 2 ^ t) with _ | v2
      · by_cases h61 : b64chr (encVals bs)[j] ^^^ 2 ^ t = 61
        · rw [h61] at hQ
          exact (decrypt_trunc_fail key iv pt bs hbs hbsb j hjv _ Q hQ).elim
        · exact (decrypt_invalid_fail key iv pt bs hbs j hjv _ h64 h61 Q hQ).elim
      · exact decrypt_alpha_eq key iv pt bs hkey hiv hpt hbs hbsb j hjv _ v2 h64 Q hQ
    · -- a padding character is corrupted
      have hbloblen : (b64encode bs).length
          = (encVals bs).length + b64pads bs.length := by
        rw [b64encode_eq]
        simp
      rw [hbloblen] at hjin
      have hgetc : (b64encode bs).getD j 0 = 61 := by
        rw [b64encode_eq, List.getD_eq_getElem?_getD,
            List.getElem?_append_right (by simp only [List.length_map]; omega),
            List.getElem?_replicate_of_lt (by simp only [List.length_map]; omega)]
        rfl
      rw [hgetc] at hQ
      have h2pos := Nat.two_pow_pos t
      have hne61 : 61 ^^^ 2 ^ t ≠ 61 := by
        intro h
        have h3 : 61 ^^^ (61 ^^^ 2 ^ t) = 61 ^^^ 61 := by rw [h]
        rw [← Nat.xor_assoc, Nat.xor_self, Nat.zero_xor] at h3
        omega
      rcases (by omega : b64pads bs.length = 1 ∧ j = (encVals bs).length
          ∨ b64pads bs.length = 2 ∧ j = (encVals bs).length
          ∨ b64pads bs.length = 2 ∧ j = (encVals bs).length + 1) with
        ⟨hnp, hjeq⟩ | ⟨hnp, hjeq⟩ | ⟨hnp, hjeq⟩
      · -- the single padding character is corrupted
        have hset : (b64encode bs).set j (61 ^^^ 2 ^ t)
            = (encVals bs).map b64chr ++ [61 ^^^ 2 ^ t] := by
          rw [b64encode_eq, hnp,
              List.set_append_right _ _ (by simp only [List.length_map]; omega),
              (by simp only [List.length_map]; omega
                : j - ((encVals bs).map b64chr).length = 0)]
          rfl
        rw [hset] at hQ
        rcases h64 : b64val (61 ^^^ 2 ^ t) with _ | v2
        · have hdec : b64decode ((encVals bs).map b64chr ++ [61 ^^^ 2 ^ t]) = bs := by
            have h := b64decode_map_invalid (encVals bs) [] (61 ^^^ 2 ^ t) 0
              (encVals_lt bs) (by intro v hv; exact absurd hv (List.not_mem_nil v))
              h64 hne61
            simp only [List.map_nil, List.replicate_zero, List.nil_append,
              List.append_nil] at h
            rw [h]
            exact hdecbs
          have hgood := decryptData_of_decode key iv pt _ hkey hiv hpt
            (by rw [hdec]; exact hbs)
          rw [hgood] at hQ
          injection hQ with h
          exact h.symm
        · obtain ⟨hc2eq, hv2lt⟩ := b64val_inv _ _ h64
          have hdec : b64decode ((encVals bs).map b64chr ++ [61 ^^^ 2 ^ t])
              = bs ++ [byteVal false false (v2.testBit 5) (v2.testBit 4)
                  (v2.testBit 3) (v2.testBit 2) (v2.testBit 1) (v2.testBit 0)] := by
            rw [← hc2eq]
            have hform : (encVals bs).map b64chr ++ [b64chr v2]
                = ((encVals bs) ++ [v2]).map b64chr ++ List.replicate 0 61 := by
              simp
            rw [hform, b64decode_map_pads _ _ (by
              intro v hv
              rcases List.mem_append.mp hv with h1 | h1
              · exact encVals_lt bs v h1
              · rw [List.mem_singleton] at h1
                rw [h1]
                exact hv2lt)]
            rw [List.map_append, List.flatten_append, encVals_flatten, hnp]
            rw [List.append_assoc]
            rw [bitsToBytes_append_aligned _ _
              (by rw [bytesToBits_length]; exact ⟨bs.length, rfl⟩)]
            have hb1 : bitsToBytes (bytesToBits bs) = bs := by
              have h0 := bitsToBytes_bytesToBits bs [] hbsb (by simp)
              simpa using h0
            rw [hb1]
            congr 1
          rcases hp : parseBlob (bs ++ [byteVal false false (v2.testBit 5)
              (v2.testBit 4) (v2.testBit 3) (v2.testBit 2) (v2.testBit 1)
              (v2.testBit 0)]) with _ | ⟨a2, b2, c2x⟩
          · rw [decryptData_parse_none _ _ (by rw [hdec]; exact hp)] at hQ
            exact Option.noConfusion hQ
          · exact (parse_concat_fail bs _ (byteVal_ff_lt _ _ _ _ _ _)
              a2 b2 c2x hp).elim
      · -- the first of two padding characters is corrupted
        have hset : (b64encode bs).set j (61 ^^^ 2 ^ t)
            = (encVals bs).map b64chr ++ ((61 ^^^ 2 ^ t) :: [61]) := by
          rw [b64encode_eq, hnp,
              List.set_append_right _ _ (by simp only [List.length_map]; omega),
              (by simp only [List.length_map]; omega
                : j - ((encVals bs).map b64chr).length = 0)]
          rfl
        rw [hset] at hQ
        rcases h64 : b64val (61 ^^^ 2 ^ t) with _ | v2
        · have hdec : b64decode ((encVals bs).map b64chr
              ++ ((61 ^^^ 2 ^ t) :: [61])) = bs := by
            have h := b64decode_map_invalid (encVals bs) [] (61 ^^^ 2 ^ t) 1
              (encVals_lt bs) (by intro v hv; exact absurd hv (List.not_mem_nil v))
              h64 hne61
            simp only [List.map_nil, List.replicate_one, List.nil_append,
              List.append_nil] at h
            rw [h]
            exact hdecbs
          have hgood := decryptData_of_decode key iv pt _ hkey hiv hpt
            (by rw [hdec]; exact hbs)
          rw [hgood] at hQ
          injection hQ with h
          exact h.symm
        · obtain ⟨hc2eq, hv2lt⟩ := b64val_inv _ _ h64
          have hdec : b64decode ((encVals bs).map b64chr ++ ((61 ^^^ 2 ^ t) :: [61]))
              = bs ++ [byteVal false false false false (v2.testBit 5) (v2.testBit 4)
                  (v2.testBit 3) (v2.testBit 2)] := by
            rw [← hc2eq]
            have hform : (encVals bs).map b64chr ++ (b64chr v2 :: [61])
                = ((encVals bs) ++ [v2]).map b64chr ++ 61 :: [] := by
              simp
            rw [hform, b64decode_map_eq61 _ _ (by
              intro v hv
              rcases List.mem_append.mp hv with h1 | h1
              · exact encVals_lt bs v h1
              · rw [List.mem_singleton] at h1
                rw [h1]
                exact hv2lt)]
            rw [List.map_append, List.flatten_append, encVals_flatten, hnp]
            rw [List.append_assoc]
            rw [bitsToBytes_append_aligned _ _
              (by rw [bytesToBits_length]; exact ⟨bs.length, rfl⟩)]
            have hb1 : bitsToBytes (bytesToBits bs) = bs := by
              have h0 := bitsToBytes_bytesToBits bs [] hbsb (by simp)
              simpa using h0
            rw [hb1]
            congr 1
          rcases hp : parseBlob (bs ++ [byteVal false false false false
              (v2.testBit 5) (v2.testBit 4) (v2.testBit 3) (v2.testBit 2)])
              with _ | ⟨a2, b2, c2x⟩
          · rw [decryptData_parse_none _ _ (by rw [hdec]; exact hp)] at hQ
            exact Option.noConfusion hQ
          · exact (parse_concat_fail bs _ (byteVal_ffff_lt _ _ _ _)
              a2 b2 c2x hp).elim
      · -- the second of two padding characters is corrupted
        have hset : (b64encode bs).set j (61 ^^^ 2 ^ t)
            = (encVals bs).map b64chr ++ (61 :: [61 ^^^ 2 ^ t]) := by
          rw [b64encode_eq, hnp,
              List.set_append_right _ _ (by simp only [List.length_map]; omega),
              (by simp only [List.length_map]; omega
                : j - ((encVals bs).map b64chr).length = 1)]
          rfl
        rw [hset] at hQ
        have hdec : b64decode ((encVals bs).map b64chr ++ (61 :: [61 ^^^ 2 ^ t]))
            = bs := by
          rw [b64decode_map_eq61 _ _ (encVals_lt bs)]
          exact hdecbs
        have hgood := decryptData_of_decode key iv pt _ hkey hiv hpt
          (by rw [hdec]; exact hbs)
        rw [hgood] at hQ
        injection hQ with h
        exact h.symm
  · rw [List.set_eq_of_length_le (by omega)] at hQ
    have hgood := decryptData_of_decode key iv pt (b64encode bs) hkey hiv hpt
      (by rw [b64decode_b64encode bs hbsb]; exact hbs)
    rw [hgood] at hQ
    injection hQ with h
    exact h.symm

set_option maxRecDepth 100000 in
/-- Claim C2: as stated the claim is refuted by this counterexample.
Flipping bit 1417 of a concrete encrypted blob (bit 1 of the final data
character of the base64 text) yields a genuinely different blob that still
decrypts successfully, because the flipped bit lies in the slack bits of
the final base64 digit and is discarded by decoding; decryption returns the
original plaintext rather than failing. -/
theorem C2_tamper_counterexample :
    flipBit (encryptData (List.range 32) (List.range 16) [65]) 1417
      ≠ encryptData (List.range 32) (List.range 16) [65]
    ∧ decryptData (List.range 32)
        (flipBit (encryptData (List.range 32) (List.range 16) [65]) 1417)
      = some [65] := by
  constructor
  · decide
  · decide

/-- Claim C2 (amended): for every plaintext and every blob obtained from an
`encryptData` output by flipping a single bit, `decryptData` either fails
or returns the original plaintext unchanged; it never returns successfully
with plaintext different from the original. -/
theorem C2_flip_never_altered (key iv pt : List Nat)
    (hkey : ∀ x ∈ key, x < 256) (hiv : ∀ x ∈ iv, x < 256)
    (hpt : ∀ x ∈ pt, x < 256) (i : Nat) :
    decryptData key (flipBit (encryptData key iv pt) i) = none
      ∨ decryptData key (flipBit (encryptData key iv pt) i) = some pt := by
  rcases hd : decryptData key (flipBit (encryptData key iv pt) i) with _ | Q
  · exact Or.inl rfl
  · right
    rw [flip_decrypt_eq key iv pt hkey hiv hpt i Q hd]

/-- Witness for the amended C2 at a concrete key, IV, plaintext and bit. -/
theorem C2_flip_witness :
    decryptData (List.range 32)
        (flipBit (encryptData (List.range 32) (List.range 16) [65]) 0) = none
      ∨ decryptData (List.range 32)
        (flipBit (encryptData (List.range 32) (List.range 16) [65]) 0)
      = some [65] :=
  C2_flip_never_altered (List.range 32) (List.range 16) [65]
    (by decide) (by decide) (by decide) 0

/-! ### Association list and sorting lemmas -/
theorem assocGet_set_self {α : Type} (l : List (List Nat × α)) (k : List Nat)
    (v : α) : assocGet (assocSet l k v) k = some v := by
  unfold assocSet assocGet
  rw [if_pos rfl]

theorem assocGet_del_self {α : Type} (l : List (List Nat × α)) (k : List Nat) :
    assocGet (assocDel l k) k = none := by
  induction l with
  | nil => rfl
  | cons e rest ih =>
      unfold assocDel at ih ⊢
      rw [List.filter_cons]
      by_cases he : e.1 = k
      · rw [if_neg (by simp [he])]
        exact ih
      · rw [if_pos (by simp [he])]
        unfold assocGet
        rw [if_neg he]
        exact ih

theorem insertRecord_mem (a r : Record) (l : List Record) :
    a ∈ insertRecord r l ↔ a = r ∨ a ∈ l := by
  induction l with
  | nil => simp [insertRecord]
  | cons x xs ih =>
      simp only [insertRecord]
      split_ifs with h
      · simp only [List.mem_cons, ih]
        tauto
      · simp only [List.mem_cons]

theorem sortRecords_mem (a : Record) (l : List Record) :
    a ∈ sortRecords l ↔ a ∈ l := by
  induction l with
  | nil => simp [sortRecords]
  | cons x xs ih =>
      simp only [sortRecords, insertRecord_mem, List.mem_cons, ih]

theorem insertRecord_sorted (r : Record) (l : List Record) (h : SortedDesc l) :
    SortedDesc (insertRecord r l) := by
  induction l with
  | nil => simp [insertRecord]
  | cons x xs ih =>
      rcases List.pairwise_cons.mp h with ⟨hx, hxs⟩
      simp only [insertRecord]
      split_ifs with hlt
      · refine List.pairwise_cons.mpr ⟨?_, ih hxs⟩
        intro y hy
        rcases (insertRecord_mem y r xs).mp hy with rfl | hy2
        · omega
        · exact hx y hy2
      · refine List.pairwise_cons.mpr ⟨?_, h⟩
        intro y hy
        rcases List.mem_cons.mp hy with rfl | hy2
        · omega
        · have := hx y hy2
          omega

theorem sortRecords_sorted (l : List Record) : SortedDesc (sortRecords l) := by
  induction l with
  | nil => simp [sortRecords]
  | cons x xs ih =>
      simp only [sortRecords]
      exact insertRecord_sorted x (sortRecords xs) ih

/-! ### Reduction lemmas for loadUserData -/
theorem loadUserData_none (db : Store) (clock : Clock) (userId : List Nat)
    (enc : Bool) (h : assocGet db (sanitizePhoneNumber userId) = none) :
    loadUserData db clock userId enc = emptyDoc clock userId none := by
  unfold loadUserData
  rw [h]

theorem loadUserData_stored (db : Store) (clock : Clock) (userId : List Nat)
    (enc : Bool) (d : UserDocument)
    (h : assocGet db (sanitizePhoneNumber userId)
      = some (FileContent.stored enc d)) :
    loadUserData db clock userId enc = d := by
  unfold loadUserData
  rw [h]
  simp

theorem loadUserData_corrupt (db : Store) (clock : Clock) (userId : List Nat)
    (enc : Bool)
    (h : assocGet db (sanitizePhoneNumber userId) = some FileContent.corrupt) :
    loadUserData db clock userId enc = emptyDoc clock userId (some loadFailMsg) := by
  unfold loadUserData
  rw [h]

theorem loadUserData_mismatch (db : Store) (clock : Clock) (userId : List Nat)
    (enc e : Bool) (d : UserDocument)
    (h : assocGet db (sanitizePhoneNumber userId)
      = some (FileContent.stored e d)) (hne : e ≠ enc) :
    loadUserData db clock userId enc = emptyDoc clock userId (some loadFailMsg) := by
  unfold loadUserData
  rw [h]
  simp [hne]

/-- Claim C3: after every addRecord call that returns true, the persisted
record collection is sorted in descending order of the records' timestamp
field (most recent first): reloading the stored document at any later
instant yields a collection in which every record is at least as recent as
all records after it. -/
theorem C3_addRecord_sorted (db : Store) (clock clock2 : Clock) (writeOk : Bool)
    (rid userId : List Nat) (r : RecordInput) (encrypted : Bool) (db2 : Store)
    (h : addRecord db clock writeOk rid userId r encrypted = (db2, true)) :
    SortedDesc (getAllRecords db2 clock2 userId encrypted) := by
  simp only [addRecord, saveUserData] at h
  by_cases hw : writeOk
  · rw [if_pos hw] at h
    injection h with h1 h2
    unfold getAllRecords
    rw [loadUserData_stored db2 clock2 userId encrypted _
      (by rw [← h1]; exact assocGet_set_self _ _ _)]
    exact sortRecords_sorted _
  · rw [if_neg hw] at h
    injection h with h1 h2
    exact absurd h2 (by simp)

/-- Claim C4: loadUserData never propagates a failure.  With no stored file
it returns the empty document with zero records, zero totalRecords, fresh
metadata and no error marker; on a corrupt file, or on a file stored under
the other encryption mode (so that decrypt respectively JSON-parse throws),
it returns the empty document whose metadata carries the error marker. -/
theorem C4_load_fallback (db : Store) (clock : Clock) (userId : List Nat)
    (encrypted : Bool) :
    (assocGet db (sanitizePhoneNumber userId) = none →
      loadUserData db clock userId encrypted = emptyDoc clock userId none)
    ∧ (assocGet db (sanitizePhoneNumber userId) = some FileContent.corrupt →
      loadUserData db clock userId encrypted
        = emptyDoc clock userId (some loadFailMsg))
    ∧ (∀ e d0, assocGet db (sanitizePhoneNumber userId)
          = some (FileContent.stored e d0) → e ≠ encrypted →
      loadUserData db clock userId encrypted
        = emptyDoc clock userId (some loadFailMsg))
    ∧ (emptyDoc clock userId none).records = []
    ∧ (emptyDoc clock userId none).metadata.totalRecords = 0
    ∧ (emptyDoc clock userId none).metadata.error = none
    ∧ (emptyDoc clock userId none).metadata.createdAt = clock.nowMs
    ∧ (emptyDoc clock userId (some loadFailMsg)).records = []
    ∧ (emptyDoc clock userId (some loadFailMsg)).metadata.totalRecords = 0
    ∧ (emptyDoc clock userId (some loadFailMsg)).metadata.error
        = some loadFailMsg :=
  ⟨loadUserData_none db clock userId encrypted,
   loadUserData_corrupt db clock userId encrypted,
   fun e d0 h hne => loadUserData_mismatch db clock userId encrypted e d0 h hne,
   rfl, rfl, rfl, rfl, rfl, rfl, rfl⟩

/-- Claim C5: saveUserData recomputes metadata.totalRecords as the number
of records and refreshes metadata.lastUpdate before writing, so after every
call that returns true the persisted document satisfies
totalRecords equal to the record count; on a write failure it returns false
without throwing and leaves the store unchanged. -/
theorem C5_save_metadata (db : Store) (clock : Clock) (writeOk : Bool)
    (userId : List Nat) (d : UserDocument) (encrypted : Bool) :
    (∀ db2, saveUserData db clock writeOk userId d encrypted = (db2, true) →
      ∃ d2, assocGet db2 (sanitizePhoneNumber userId)
          = some (FileContent.stored encrypted d2)
        ∧ d2.metadata.totalRecords = d2.records.length
        ∧ d2.metadata.lastUpdate = clock.nowMs
        ∧ d2.records = d.records
        ∧ d2.metadata.createdAt = d.metadata.createdAt)
    ∧ (writeOk = false →
      saveUserData db clock writeOk userId d encrypted = (db, false)) := by
  constructor
  · intro db2 h
    simp only [saveUserData] at h
    by_cases hw : writeOk
    · rw [if_pos hw] at h
      injection h with h1 h2
      refine ⟨⟨d.userId, d.records,
          d.metadata.createdAt, clock.nowMs, d.records.length, d.metadata.error⟩,
        ?_, rfl, rfl, rfl, rfl⟩
      rw [← h1]
      exact assocGet_set_self _ _ _
    · rw [if_neg hw] at h
      injection h with h1 h2
      exact absurd h2 (by simp)
  · intro hw
    simp [saveUserData, hw]

/-- Claim C6: a record of the stored collection is returned by
getRecentRecords exactly when its date string is lexicographically at least
the zero-padded rendering of today minus days — an inclusive lower
bound. -/
theorem C6_recent_records (db : Store) (clock : Clock) (userId : List Nat)
    (days : Nat) (encrypted : Bool) (r : Record)
    (hr : r ∈ (loadUserData db clock userId encrypted).records) :
    r ∈ getRecentRecords db clock userId days encrypted
      ↔ jsLeB (formatDate (civilMinusDays clock.today days)) r.date = true := by
  unfold getRecentRecords
  rw [List.mem_filter]
  constructor
  · exact fun h => h.2
  · exact fun h => ⟨hr, h⟩

/-- Claim C7: validateSession returns false when no session exists; false
on a token mismatch; refreshes lastActivity and returns true when the idle
time is within the timeout; and otherwise destroys the session and returns
false, after which a later validation with the same token fails again. -/
theorem C7_validate_session (sm : SessionManager) (now now2 : Nat)
    (userId token : List Nat) :
    (assocGet sm.sessions userId = none →
      validateSession sm now userId token = (sm, false))
    ∧ (∀ s, assocGet sm.sessions userId = some s → s.stoken ≠ token →
      validateSession sm now userId token = (sm, false))
    ∧ (∀ s, assocGet sm.sessions userId = some s → s.stoken = token →
      now - s.slastActivity ≤ sm.timeoutMs →
      validateSession sm now userId token
        = ({ sm with sessions := assocSet sm.sessions userId { s with slastActivity := now } },
            true))
    ∧ (∀ s, assocGet sm.sessions userId = some s → s.stoken = token →
      sm.timeoutMs < now - s.slastActivity →
      validateSession sm now userId token
          = ({ sm with sessions := assocDel sm.sessions userId }, false)
        ∧ validateSession { sm with sessions := assocDel sm.sessions userId }
            now2 userId token
          = ({ sm with sessions := assocDel sm.sessions userId }, false)) := by
  refine ⟨?_, ?_, ?_, ?_⟩
  · intro h
    unfold validateSession
    rw [h]
  · intro s h hne
    unfold validateSession
    rw [h]
    simp [hne]
  · intro s h htok hle
    unfold validateSession
    rw [h]
    have hnlt : ¬ sm.timeoutMs < now - s.slastActivity := by omega
    simp [htok, hnlt]
  · intro s h htok hgt
    constructor
    · unfold validateSession
      rw [h]
      simp [htok, hgt]
    · unfold validateSession
      rw [show ({ sm with sessions := assocDel sm.sessions userId }
          : SessionManager).sessions = assocDel sm.sessions userId from rfl]
      rw [assocGet_del_self]

/-- Claim C8: isValidPIN accepts exactly the strings of four, five or six
ASCII digits and rejects every other string. -/
theorem C8_isValidPIN (pin : List Nat) :
    isValidPIN pin = true
      ↔ 4 ≤ pin.length ∧ pin.length ≤ 6 ∧ ∀ c ∈ pin, 48 ≤ c ∧ c ≤ 57 := by
  unfold isValidPIN
  simp [List.all_eq_true, and_assoc]

/-- Claim C9: deleteUserData removes the stored document and returns true
when a file existed, and returns false when none did; after a successful
delete, loading the same user yields an empty document with zero
totalRecords. -/
theorem C9_delete_then_load (db : Store) (clock : Clock) (userId : List Nat)
    (encrypted : Bool) :
    (∀ f, assocGet db (sanitizePhoneNumber userId) = some f →
      deleteUserData db true userId
          = (assocDel db (sanitizePhoneNumber userId), true)
        ∧ (loadUserData (assocDel db (sanitizePhoneNumber userId)) clock userId
            encrypted).records = []
        ∧ (loadUserData (assocDel db (sanitizePhoneNumber userId)) clock userId
            encrypted).metadata.totalRecords = 0)
    ∧ (assocGet db (sanitizePhoneNumber userId) = none →
      deleteUserData db true userId = (db, false)) := by
  constructor
  · intro f h
    have hload : loadUserData (assocDel db (sanitizePhoneNumber userId)) clock
        userId encrypted = emptyDoc clock userId none :=
      loadUserData_none _ _ _ _ (assocGet_del_self _ _)
    refine ⟨?_, by rw [hload]; rfl, by rw [hload]; rfl⟩
    unfold deleteUserData
    rw [h]
    rfl
  · intro h
    unfold deleteUserData
    rw [h]

/-- Claim C10: addRecord spreads the caller record after the generated
fields, so the stored collection contains a record whose id, timestamp,
date and content are the caller-supplied ones whenever the caller provided
them, and the generated id, the current instant and today's date only when
the caller omitted them. -/
theorem C10_spread_overrides (db : Store) (clock clock2 : Clock)
    (writeOk : Bool) (rid userId : List Nat) (r : RecordInput)
    (encrypted : Bool) (db2 : Store)
    (h : addRecord db clock writeOk rid userId r encrypted = (db2, true)) :
    ∃ rec, rec ∈ getAllRecords db2 clock2 userId encrypted
      ∧ rec.id = r.rid.getD rid
      ∧ rec.timestamp = r.rtimestamp.getD clock.nowMs
      ∧ rec.date = r.rdate.getD (formatDate clock.today)
      ∧ rec.content = r.rcontent := by
  simp only [addRecord, saveUserData] at h
  by_cases hw : writeOk
  · rw [if_pos hw] at h
    injection h with h1 h2
    refine ⟨mkRecord rid clock.nowMs (formatDate clock.today) r, ?_, rfl, rfl, rfl, rfl⟩
    unfold getAllRecords
    rw [loadUserData_stored db2 clock2 userId encrypted _
      (by rw [← h1]; exact assocGet_set_self _ _ _)]
    refine (sortRecords_mem _ _).mpr ?_
    simp
  · rw [if_neg hw] at h
    injection h with h1 h2
    exact absurd h2 (by simp)

/-! ### Witnesses -/
/-- Witness for C3: two successive inserts at increasing instants leave the
store sorted, with the newer record first. -/
theorem C3_witness :
    SortedDesc (getAllRecords db2 clock2 u0 false)
    ∧ getAllRecords db2 clock2 u0 false
      = [mkRecord [114, 50] 2000 (formatDate clock2.today) input0,
         mkRecord [114, 49] 1000 (formatDate clock1.today) input0] :=
  ⟨C3_addRecord_sorted db1 clock2 clock2 true [114, 50] u0 input0 false db2 rfl,
   by decide⟩

/-- Witness for C4 at a missing file and at a corrupt file. -/
theorem C4_witness :
    loadUserData [] clock1 u0 false = emptyDoc clock1 u0 none
    ∧ loadUserData [(sanitizePhoneNumber u0, FileContent.corrupt)] clock1 u0 false
      = emptyDoc clock1 u0 (some loadFailMsg) :=
  ⟨(C4_load_fallback [] clock1 u0 false).1 (by decide),
   (C4_load_fallback [(sanitizePhoneNumber u0, FileContent.corrupt)] clock1 u0
      false).2.1 (by decide)⟩

/-- Witness for C5: saving a document with a stale count stores a document
whose count matches its records. -/
theorem C5_witness :
    ∃ d2, assocGet (saveUserData [] clock1 true u0 doc0 false).1
        (sanitizePhoneNumber u0) = some (FileContent.stored false d2)
      ∧ d2.metadata.totalRecords = d2.records.length
      ∧ d2.metadata.lastUpdate = clock1.nowMs
      ∧ d2.records = doc0.records
      ∧ d2.metadata.createdAt = doc0.metadata.createdAt :=
  (C5_save_metadata [] clock1 true u0 doc0 false).1 _ rfl

/-- Witness for C6: with records dated today, three days ago and ten days
ago, a seven-day window keeps exactly the first two. -/
theorem C6_witness :
    (recToday ∈ getRecentRecords db6 clock2 u0 7 false
      ↔ jsLeB (formatDate (civilMinusDays clock2.today 7)) recToday.date = true)
    ∧ getRecentRecords db6 clock2 u0 7 false = [recToday, rec3] :=
  ⟨C6_recent_records db6 clock2 u0 7 false recToday (by decide), by decide⟩

/-- Witness for C7: a fresh validation succeeds and refreshes activity;
past the timeout it fails and the session stays gone. -/
theorem C7_witness :
    validateSession sm0 1000 u0 tok0
      = ({ sm0 with sessions := assocSet sm0.sessions u0 { sess0 with slastActivity := 1000 } },
          true)
    ∧ validateSession sm0 2000000 u0 tok0
        = ({ sm0 with sessions := assocDel sm0.sessions u0 }, false)
    ∧ validateSession { sm0 with sessions := assocDel sm0.sessions u0 } 2000001 u0 tok0
        = ({ sm0 with sessions := assocDel sm0.sessions u0 }, false) :=
  ⟨(C7_validate_session sm0 1000 0 u0 tok0).2.2.1 sess0 (by decide) rfl (by decide),
   ((C7_validate_session sm0 2000000 2000001 u0 tok0).2.2.2 sess0 (by decide) rfl
      (by decide)).1,
   ((C7_validate_session sm0 2000000 2000001 u0 tok0).2.2.2 sess0 (by decide) rfl
      (by decide)).2⟩

/-- Witness for C9: deleting an existing document succeeds and a reload is
empty; deleting a missing one reports false. -/
theorem C9_witness :
    (deleteUserData db6 true u0 = (assocDel db6 (sanitizePhoneNumber u0), true)
      ∧ (loadUserData (assocDel db6 (sanitizePhoneNumber u0)) clock2 u0
          false).records = []
      ∧ (loadUserData (assocDel db6 (sanitizePhoneNumber u0)) clock2 u0
          false).metadata.totalRecords = 0)
    ∧ deleteUserData [] true u0 = ([], false) :=
  ⟨(C9_delete_then_load db6 clock2 u0 false).1 (FileContent.stored false doc6)
      (by decide),
   (C9_delete_then_load [] clock2 u0 false).2 (by decide)⟩

/-- Witness for C10: a caller-supplied id, timestamp and content survive
into the stored collection; the omitted date gets today's rendering. -/
theorem C10_witness :
    ∃ rec, rec ∈ getAllRecords (addRecord [] clock1 true [114, 57] u0 input1 false).1
        clock1 u0 false
      ∧ rec.id = [99, 49]
      ∧ rec.timestamp = 77
      ∧ rec.date = formatDate clock1.today
      ∧ rec.content = some [120] :=
  C10_spread_overrides [] clock1 clock1 true [114, 57] u0 input1 false _ rfl

end Gineco
